import Mathlib

/-!
# Verification of the `bump` release tool

A shallow embedding of the core of the `bump` release-automation tool
(version engine, conventional-commit classifier, release grouper, section
renderer, task runner, release pipeline, repository-URL resolution,
changelog saving and the JSON version provider), together with theorems
settling the specification's claims about it.

Strings are manipulated as `List Char` where the source works through
JavaScript regular expressions; the regex matchers are modelled with the
engine's leftmost/greedy/backtracking semantics made explicit.
-/

namespace Bump

/-! ## Version engine (`src/util/bump.ts`)

The source stores a version as the string `"major.minor.patch"`, splits it
on `'.'` and converts each component with `Number`.  Inputs are
pre-validated against the `SemVer` schema, so we model a version as its
numeric triple.  -/

/-- A semantic version `major.minor.patch`, modelled as its numeric triple
(the source's `SemVer` strings are pre-validated and split on `'.'`). -/
structure SemVer where
  major : Nat
  minor : Nat
  patch : Nat
deriving DecidableEq, Repr

/-- The release kinds accepted by the tool (`schemas/Release.ts`,
`z.enum(['major', 'minor', 'patch'])`). -/
inductive ReleaseKind where
  | major
  | minor
  | patch
deriving DecidableEq, Repr

/-- `bump` from `src/util/bump.ts`: increment the component selected by the
release kind and reset the lower components. -/
def bump (version : SemVer) (release : ReleaseKind) : SemVer :=
  if release = ReleaseKind.major then
    ⟨version.major + 1, 0, 0⟩
  else if release = ReleaseKind.minor then
    ⟨version.major, version.minor + 1, 0⟩
  else
    ⟨version.major, version.minor, version.patch + 1⟩

/-! ## Commit classifier (`src/util/regex.ts` `CONVENTIONAL_COMMIT`,
`src/structs/Changelog.ts` `Changelog.Convert`)

The source matches a commit subject against the JavaScript regular
expression

`^(?<type>\w+)(?:\((?<scope>.*)\))?\s?(?<breaking>!)?\s?:\s?(?<description>.*)$`

We model the regex engine's behavior explicitly: `\w` and `\d` are the
ASCII classes, `\s` is the JavaScript whitespace class, `.` excludes the
four line terminators, greedy subpatterns are expanded into candidate
lists ordered by the engine's backtracking preference, and the first
overall success wins.  The leading `\w+` never needs to backtrack: every
character that can legally follow the type (`(`, whitespace, `!`, `:`) is
a non-word character, so the maximal word-character run is the only viable
type. -/

/-- JavaScript `\w`: ASCII letters, digits and underscore. -/
def isWordChar (c : Char) : Bool := c.isAlphanum || c = '_'

/-- JavaScript line terminators, the characters `.` does not match. -/
def isLineTerm (c : Char) : Bool :=
  c = '\n' || c = '\r' || c = ' ' || c = ' '

/-- JavaScript `\s`: the WhiteSpace and LineTerminator code points. -/
def isJsWs (c : Char) : Bool :=
  c = ' ' || c = '\t' || c = '\n' || c = '\x0b' || c = '\x0c' || c = '\r' ||
  c = ' ' || c = ' ' || (' ' ≤ c && c ≤ ' ') ||
  c = ' ' || c = ' ' || c = ' ' || c = ' ' ||
  c = '　' || c = '﻿'

/-- The remainders a greedy `\s?` can leave, most-preferred first. -/
def optWs : List Char → List (List Char)
  | [] => [[]]
  | c :: rest => if isJsWs c then [rest, c :: rest] else [c :: rest]

/-- The remainders a greedy `(?<breaking>!)?` can leave, most-preferred
first, paired with whether the group participated. -/
def optBang : List Char → List (Bool × List Char)
  | [] => [(false, [])]
  | c :: rest =>
    if c = '!' then [(true, rest), (false, c :: rest)] else [(false, c :: rest)]

/-- `\s?(?<description>.*)$` after the colon: greedily consume one
whitespace character when the rest can still be the description; the
description may not contain a line terminator because `.` excludes them
and the anchor `$` (no `m` flag) only matches at the end of the input. -/
def afterColon : List Char → Option (List Char)
  | [] => some []
  | c :: rest =>
    if isJsWs c && rest.all (fun x => !isLineTerm x) then some rest
    else if (c :: rest).all (fun x => !isLineTerm x) then some (c :: rest)
    else none

/-- The literal `:` followed by `\s?(?<description>.*)$`. -/
def colonDesc (u : List Char) : Option (List Char) :=
  match u with
  | [] => none
  | c :: r => if c = ':' then afterColon r else none

/-- `\s?(?<breaking>!)?\s?:\s?(?<description>.*)$`: nested backtracking,
outer (leftmost) choice points most significant. -/
def matchTail (u : List Char) : Option (Bool × List Char) :=
  (optWs u).findSome? fun u1 =>
    (optBang u1).findSome? fun bu =>
      (optWs bu.2).findSome? fun u3 =>
        (colonDesc u3).map fun d => (bu.1, d)

/-- All ways to read `(?<scope>.*)\)` off a string: each split
`s = a ++ ')' :: b` with `a` free of line terminators, longest `a`
(the greedy preference) first. -/
def closeParenSplits : List Char → List (List Char × List Char)
  | [] => []
  | c :: rest =>
    if c = ')' then
      ((closeParenSplits rest).map fun p => (c :: p.1, p.2)) ++ [([], rest)]
    else if isLineTerm c then []
    else (closeParenSplits rest).map fun p => (c :: p.1, p.2)

/-- The candidates for the optional scope group `(?:\((?<scope>.*)\))?`:
group participating (longest scope first) before group skipped. -/
def scopeSplits : List Char → List (Option (List Char) × List Char)
  | [] => [(none, [])]
  | c :: s =>
    if c = '(' then
      ((closeParenSplits s).map fun p => (some p.1, p.2)) ++ [(none, c :: s)]
    else [(none, c :: s)]

/-- The named groups captured by `CONVENTIONAL_COMMIT`; `scope` and
`breaking` are `none` when their group did not participate. -/
structure ConventionalGroups where
  type : String
  scope : Option String
  breaking : Option String
  description : String
deriving DecidableEq, Repr

/-- `match(regex.CONVENTIONAL_COMMIT, subject)` from `src/util/match.ts`:
the named groups of the match, or `none` when the subject does not
match. -/
def matchConventional (subject : String) : Option ConventionalGroups :=
  if (subject.toList.takeWhile isWordChar).isEmpty then none
  else
    (scopeSplits (subject.toList.dropWhile isWordChar)).findSome? fun sr =>
      (matchTail sr.2).map fun bd =>
        { type := (subject.toList.takeWhile isWordChar).asString
          scope := sr.1.map List.asString
          breaking := if bd.1 then some "!" else none
          description := bd.2.asString }

/-- The structured subject produced by `Changelog.Convert`: the captured
groups with `breaking` collapsed to `groups.breaking !== undefined`. -/
structure ConventionalMessage where
  type : String
  scope : Option String
  breaking : Bool
  description : String
deriving DecidableEq, Repr

/-- A commit message after classification: either the raw subject string
(no match) or the structured conventional record. -/
inductive MessageVal where
  | raw (s : String)
  | conv (m : ConventionalMessage)
deriving DecidableEq, Repr

/-- The subject-level core of `Changelog.Convert`: classify a commit
subject, falling back to the raw string when the regex does not match. -/
def classify (subject : String) : MessageVal :=
  match matchConventional subject with
  | none => MessageVal.raw subject
  | some g =>
      MessageVal.conv
        { type := g.type, scope := g.scope, breaking := g.breaking.isSome
          description := g.description }

/-- No line terminator occurs in the chunk (what `.*` can produce). -/
def NoTerm (l : List Char) : Prop := ∀ c ∈ l, isLineTerm c = false

/-- The chunk is at most one JavaScript whitespace character (what one
`\s?` slot can produce). -/
def OptWsChunk (w : List Char) : Prop := w = [] ∨ ∃ c, isJsWs c = true ∧ w = [c]

/-- Declarative reading of the grammar the source actually implements:
`^<type>(\(<scope>\))?\s?<breaking:!>?\s?:\s?<description>$` with each
`\s?` at most one whitespace character. -/
def MatchesCommitGrammar (s : String) (g : ConventionalGroups) : Prop :=
  ∃ scopeEnc bangEnc w1 w2 w3,
    s.toList =
      g.type.toList ++ scopeEnc ++ w1 ++ bangEnc ++ w2 ++
        ':' :: (w3 ++ g.description.toList) ∧
    g.type.toList ≠ [] ∧ (∀ c ∈ g.type.toList, isWordChar c = true) ∧
    (match g.scope with
      | none => scopeEnc = []
      | some sc => scopeEnc = '(' :: (sc.toList ++ [')']) ∧ NoTerm sc.toList) ∧
    (match g.breaking with
      | none => bangEnc = []
      | some b => b = "!" ∧ bangEnc = ['!']) ∧
    OptWsChunk w1 ∧ OptWsChunk w2 ∧ OptWsChunk w3 ∧
    NoTerm g.description.toList

/-- The grammar exactly as the specification sentence states it:
`^<type>(\(<scope>\))?<breaking:!>?\s*:\s*<description>$`, with *any*
amount of whitespace around the colon and no whitespace slot between the
scope and `!`.  Written from the spec's words, to be compared with the
behavior of the source matcher. -/
def SpecGrammarMatches (s : String) (g : ConventionalGroups) : Prop :=
  ∃ scopeEnc bangEnc w1 w2,
    s.toList =
      g.type.toList ++ scopeEnc ++ bangEnc ++ w1 ++
        ':' :: (w2 ++ g.description.toList) ∧
    g.type.toList ≠ [] ∧ (∀ c ∈ g.type.toList, isWordChar c = true) ∧
    (match g.scope with
      | none => scopeEnc = []
      | some sc => scopeEnc = '(' :: (sc.toList ++ [')'])) ∧
    (match g.breaking with
      | none => bangEnc = []
      | some b => b = "!" ∧ bangEnc = ['!']) ∧
    (∀ c ∈ w1, isJsWs c = true) ∧ (∀ c ∈ w2, isJsWs c = true)

theorem asString_data (l : List Char) : l.asString.data = l := rfl

theorem noTerm_of_all {l : List Char}
    (h : l.all (fun x => !isLineTerm x) = true) : NoTerm l := by
  intro c hc
  have := List.all_eq_true.mp h c hc
  simpa using this

theorem mem_closeParenSplits {s a b : List Char}
    (h : (a, b) ∈ closeParenSplits s) : s = a ++ ')' :: b ∧ NoTerm a := by
  induction s generalizing a b with
  | nil => simp [closeParenSplits] at h
  | cons c rest ih =>
    rw [closeParenSplits] at h
    split at h
    · rename_i hc
      simp only [List.mem_append, List.mem_map, List.mem_singleton,
        Prod.mk.injEq] at h
      rcases h with ⟨p, hp, rfl, rfl⟩ | ⟨rfl, rfl⟩
      · obtain ⟨hrest, hnt⟩ := ih (a := p.1) (b := p.2) (by simpa using hp)
        subst hc
        refine ⟨by rw [hrest]; simp, ?_⟩
        intro x hx
        rcases List.mem_cons.mp hx with hx | hx
        · subst hx; decide
        · exact hnt x hx
      · subst hc
        exact ⟨rfl, by intro x hx; simp at hx⟩
    · split at h
      · simp at h
      · rename_i hc hterm
        simp only [List.mem_map, Prod.mk.injEq] at h
        rcases h with ⟨p, hp, rfl, rfl⟩
        obtain ⟨hrest, hnt⟩ := ih (a := p.1) (b := p.2) (by simpa using hp)
        refine ⟨by rw [hrest]; simp, ?_⟩
        intro x hx
        rcases List.mem_cons.mp hx with hx | hx
        · subst hx; simpa using hterm
        · exact hnt x hx

theorem mem_scopeSplits {r : List Char} {sc : Option (List Char)} {u : List Char}
    (h : (sc, u) ∈ scopeSplits r) :
    (sc = none ∧ u = r) ∨
      ∃ a, sc = some a ∧ r = '(' :: (a ++ ')' :: u) ∧ NoTerm a := by
  cases r with
  | nil =>
    simp only [scopeSplits, List.mem_singleton, Prod.mk.injEq] at h
    rcases h with ⟨rfl, rfl⟩
    exact Or.inl ⟨rfl, rfl⟩
  | cons c s =>
    rw [scopeSplits] at h
    split at h
    · rename_i hc
      simp only [List.mem_append, List.mem_map, List.mem_singleton,
        Prod.mk.injEq] at h
      rcases h with ⟨p, hp, rfl, rfl⟩ | ⟨rfl, rfl⟩
      · obtain ⟨hrest, hnt⟩ :=
          mem_closeParenSplits (a := p.1) (b := p.2) (by simpa using hp)
        right
        exact ⟨p.1, rfl, by rw [hc, hrest], hnt⟩
      · exact Or.inl ⟨rfl, rfl⟩
    · simp only [List.mem_singleton, Prod.mk.injEq] at h
      rcases h with ⟨rfl, rfl⟩
      exact Or.inl ⟨rfl, rfl⟩

theorem mem_optWs {u v : List Char} (h : v ∈ optWs u) :
    ∃ w, OptWsChunk w ∧ u = w ++ v := by
  cases u with
  | nil =>
    rw [optWs] at h
    refine ⟨[], Or.inl rfl, ?_⟩
    simpa using (List.mem_singleton.mp h).symm
  | cons c rest =>
    rw [optWs] at h
    split at h
    · rename_i hws
      rcases List.mem_cons.mp h with h | h
      · exact ⟨[c], Or.inr ⟨c, hws, rfl⟩, by rw [h]; rfl⟩
      · exact ⟨[], Or.inl rfl, by simpa using (List.mem_singleton.mp h).symm⟩
    · exact ⟨[], Or.inl rfl, by simpa using (List.mem_singleton.mp h).symm⟩

theorem mem_optBang {u : List Char} {bk : Bool} {v : List Char}
    (h : (bk, v) ∈ optBang u) :
    u = (if bk then ['!'] else []) ++ v := by
  cases u with
  | nil =>
    simp only [optBang, List.mem_singleton, Prod.mk.injEq] at h
    rcases h with ⟨rfl, rfl⟩
    rfl
  | cons c rest =>
    rw [optBang] at h
    split at h
    · rename_i hc
      simp only [List.mem_cons, List.mem_singleton, Prod.mk.injEq,
        List.not_mem_nil, or_false] at h
      rcases h with ⟨rfl, rfl⟩ | ⟨rfl, rfl⟩
      · subst hc; rfl
      · rfl
    · simp only [List.mem_singleton, Prod.mk.injEq] at h
      rcases h with ⟨rfl, rfl⟩
      rfl

theorem afterColon_eq_some {r d : List Char} (h : afterColon r = some d) :
    ∃ w, OptWsChunk w ∧ r = w ++ d ∧ NoTerm d := by
  cases r with
  | nil =>
    rw [afterColon] at h
    obtain rfl := Option.some.inj h
    exact ⟨[], Or.inl rfl, rfl, by intro c hc; simp at hc⟩
  | cons c rest =>
    rw [afterColon] at h
    split at h
    · rename_i hcond
      obtain rfl := Option.some.inj h
      obtain ⟨h1, h2⟩ : isJsWs c = true ∧ rest.all (fun x => !isLineTerm x) = true := by
        simpa using hcond
      exact ⟨[c], Or.inr ⟨c, h1, rfl⟩, rfl, noTerm_of_all h2⟩
    · split at h
      · rename_i hcond
        obtain rfl := Option.some.inj h
        exact ⟨[], Or.inl rfl, rfl, noTerm_of_all hcond⟩
      · simp at h

theorem colonDesc_eq_some {u d : List Char} (h : colonDesc u = some d) :
    ∃ r, u = ':' :: r ∧ afterColon r = some d := by
  cases u with
  | nil => simp [colonDesc] at h
  | cons c r =>
    rw [colonDesc] at h
    split at h
    · rename_i hc
      exact ⟨r, by rw [hc], h⟩
    · simp at h

theorem matchTail_eq_some {u : List Char} {bk : Bool} {d : List Char}
    (h : matchTail u = some (bk, d)) :
    ∃ w1 w2 w3,
      u = w1 ++ (if bk then ['!'] else []) ++ w2 ++ ':' :: (w3 ++ d) ∧
      OptWsChunk w1 ∧ OptWsChunk w2 ∧ OptWsChunk w3 ∧ NoTerm d := by
  obtain ⟨u1, hu1, h⟩ := List.exists_of_findSome?_eq_some h
  obtain ⟨bu, hbu, h⟩ := List.exists_of_findSome?_eq_some h
  obtain ⟨u3, hu3, h⟩ := List.exists_of_findSome?_eq_some h
  obtain ⟨d0, hcd, heq⟩ := Option.map_eq_some'.mp h
  obtain ⟨rfl, rfl⟩ : bu.1 = bk ∧ d0 = d := by
    simpa [Prod.mk.injEq] using heq
  obtain ⟨w1, hw1, hu⟩ := mem_optWs hu1
  have hbang := @mem_optBang u1 bu.1 bu.2 hbu
  obtain ⟨w2, hw2, hu2⟩ := mem_optWs hu3
  obtain ⟨r, hu3c, hac⟩ := colonDesc_eq_some hcd
  obtain ⟨w3, hw3, hr, hnt⟩ := afterColon_eq_some hac
  refine ⟨w1, w2, w3, ?_, hw1, hw2, hw3, hnt⟩
  rw [hu, hbang, hu2, hu3c, hr]
  simp

theorem matchConventional_sound {s : String} {g : ConventionalGroups}
    (h : matchConventional s = some g) : MatchesCommitGrammar s g := by
  rw [matchConventional] at h
  split at h
  · simp at h
  · rename_i hne
    obtain ⟨sr, hsr, h⟩ := List.exists_of_findSome?_eq_some h
    obtain ⟨bd, hmt, heq⟩ := Option.map_eq_some'.mp h
    subst heq
    have hsplit := @mem_scopeSplits _ sr.1 sr.2 hsr
    obtain ⟨w1, w2, w3, hu, hw1, hw2, hw3, hnt⟩ :=
      @matchTail_eq_some sr.2 bd.1 bd.2 hmt
    have hty : s.toList.takeWhile isWordChar ++ s.toList.dropWhile isWordChar
        = s.toList := List.takeWhile_append_dropWhile isWordChar s.toList
    have hnonempty : ¬((s.toList.takeWhile isWordChar).asString.data = []) := by
      intro hcontra
      rw [asString_data] at hcontra
      exact hne (by rw [hcontra]; rfl)
    rcases hsplit with ⟨hnone, hrest⟩ | ⟨a, hsome, hrest, hnta⟩
    · refine ⟨[], if bd.1 then ['!'] else [], w1, w2, w3, ?_, hnonempty, ?_, ?_, ?_,
        hw1, hw2, hw3, hnt⟩
      · conv_lhs => rw [← hty]
        rw [← hrest, hu]
        simp [asString_data]
      · intro c hc
        exact List.mem_takeWhile_imp hc
      · simp [hnone]
      · cases bd.1 <;> simp
    · refine ⟨'(' :: (a ++ [')']), if bd.1 then ['!'] else [], w1, w2, w3,
        ?_, hnonempty, ?_, ?_, ?_, hw1, hw2, hw3, hnt⟩
      · conv_lhs => rw [← hty]
        rw [hrest, hu]
        simp [asString_data]
      · intro c hc
        exact List.mem_takeWhile_imp hc
      · simp only [hsome]
        exact ⟨rfl, hnta⟩
      · cases bd.1 <;> simp

/-- A word character is at most `'z'` in the character order. -/
theorem word_le_z {c : Char} (h : isWordChar c = true) : c ≤ 'z' := by
  rw [isWordChar] at h
  simp only [Bool.or_eq_true, decide_eq_true_eq] at h
  rcases h with h | rfl
  · rw [Char.isAlphanum] at h
    simp only [Bool.or_eq_true] at h
    rcases h with h | h
    · rw [Char.isAlpha] at h
      simp only [Bool.or_eq_true] at h
      rcases h with h | h
      · rw [Char.isUpper] at h
        simp only [Bool.and_eq_true, decide_eq_true_eq] at h
        have h2 : c ≤ 'Z' := h.2
        exact le_trans h2 (by decide)
      · rw [Char.isLower] at h
        simp only [Bool.and_eq_true, decide_eq_true_eq] at h
        exact h.2
    · rw [Char.isDigit] at h
      simp only [Bool.and_eq_true, decide_eq_true_eq] at h
      have h2 : c ≤ '9' := h.2
      exact le_trans h2 (by decide)
  · decide

/-- No JavaScript whitespace character is a word character. -/
theorem jsWs_not_word {c : Char} (h : isJsWs c = true) : isWordChar c = false := by
  cases hw : isWordChar c with
  | false => rfl
  | true =>
    exfalso
    have hz := word_le_z hw
    rw [isJsWs] at h
    simp only [Bool.or_eq_true, Bool.and_eq_true, decide_eq_true_eq] at h
    rcases h with
      ((((((((((((((h | h) | h) | h) | h) | h) | h) | h) | hr) | h) | h) | h) | h) | h) | h)
    all_goals try (rw [h] at hw; exact absurd hw (by decide))
    exact absurd (le_trans hr.1 hz) (by decide)

/-- `takeWhile`/`dropWhile` split a list exactly at the first character
failing the predicate. -/
theorem takeWhile_append_eq {p : Char → Bool} {l : List Char} {c : Char} {r : List Char}
    (hl : ∀ x ∈ l, p x = true) (hc : p c = false) :
    (l ++ c :: r).takeWhile p = l ∧ (l ++ c :: r).dropWhile p = c :: r := by
  induction l with
  | nil =>
    constructor
    · rw [List.nil_append, List.takeWhile_cons, hc]
      simp
    · rw [List.nil_append, List.dropWhile_cons, hc]
      simp
  | cons a l ih =>
    have ha : p a = true := hl a (List.mem_cons_self a l)
    obtain ⟨ih1, ih2⟩ := ih (fun x hx => hl x (List.mem_cons_of_mem a hx))
    constructor
    · rw [List.cons_append, List.takeWhile_cons, ha, ih1]
      simp
    · rw [List.cons_append, List.dropWhile_cons, ha, ih2]
      simp

/-- `findSome?` succeeds when some member of the list succeeds. -/
theorem findSome_isSome_of_mem {α β : Type} {l : List α} {f : α → Option β} {x : α}
    (hx : x ∈ l) (hf : (f x).isSome = true) : (l.findSome? f).isSome = true := by
  induction l with
  | nil => simp at hx
  | cons a l ih =>
    rw [List.findSome?_cons]
    cases hfa : f a with
    | some b => rfl
    | none =>
      rcases List.mem_cons.mp hx with rfl | hx2
      · rw [hfa] at hf
        simp at hf
      · exact ih hx2

/-- Dropping a whole optional-whitespace chunk is one of the candidates a
greedy `\s?` offers. -/
theorem optWs_mem_drop {w v : List Char} (hw : OptWsChunk w) : v ∈ optWs (w ++ v) := by
  rcases hw with rfl | ⟨c, hc, rfl⟩
  · show v ∈ optWs v
    cases v with
    | nil =>
      rw [optWs]
      exact List.mem_singleton.mpr rfl
    | cons a r =>
      rw [optWs]
      split
      · exact List.mem_cons_of_mem _ (List.mem_singleton.mpr rfl)
      · exact List.mem_singleton.mpr rfl
  · show v ∈ optWs (c :: v)
    rw [optWs, if_pos hc]
    exact List.mem_cons_self _ _

/-- Skipping the bang is one of the candidates `(?<breaking>!)?` offers. -/
theorem optBang_mem_none (v : List Char) : (false, v) ∈ optBang v := by
  cases v with
  | nil =>
    rw [optBang]
    exact List.mem_singleton.mpr rfl
  | cons a r =>
    rw [optBang]
    split
    · exact List.mem_cons_of_mem _ (List.mem_singleton.mpr rfl)
    · exact List.mem_singleton.mpr rfl

/-- Consuming a literal bang is one of the candidates `(?<breaking>!)?`
offers. -/
theorem optBang_mem_bang (v : List Char) : (true, v) ∈ optBang ('!' :: v) := by
  rw [optBang, if_pos rfl]
  exact List.mem_cons_self _ _

/-- Every terminator-free split at a closing parenthesis is enumerated by
`closeParenSplits`. -/
theorem closeParenSplits_mem {a b : List Char} (hnt : NoTerm a) :
    (a, b) ∈ closeParenSplits (a ++ ')' :: b) := by
  induction a with
  | nil =>
    rw [List.nil_append, closeParenSplits, if_pos rfl]
    exact List.mem_append_right _ (List.mem_singleton.mpr rfl)
  | cons c a ih =>
    have hc : isLineTerm c = false := hnt c (List.mem_cons_self c a)
    have ih2 := ih (fun x hx => hnt x (List.mem_cons_of_mem c hx))
    rw [List.cons_append, closeParenSplits]
    by_cases h : c = ')'
    · rw [if_pos h]
      exact List.mem_append_left _ (List.mem_map_of_mem _ ih2)
    · rw [if_neg h, if_neg (by simp [hc])]
      exact List.mem_map_of_mem _ ih2

/-- Skipping the scope group is one of the candidates
`(?:\((?<scope>.*)\))?` offers. -/
theorem scopeSplits_mem_none (r : List Char) : (none, r) ∈ scopeSplits r := by
  cases r with
  | nil =>
    rw [scopeSplits]
    exact List.mem_singleton.mpr rfl
  | cons c s =>
    rw [scopeSplits]
    split
    · exact List.mem_append_right _ (List.mem_singleton.mpr rfl)
    · exact List.mem_singleton.mpr rfl

/-- Capturing a terminator-free scope is one of the candidates
`(?:\((?<scope>.*)\))?` offers. -/
theorem scopeSplits_mem_scope {a u : List Char} (hnt : NoTerm a) :
    (some a, u) ∈ scopeSplits ('(' :: (a ++ ')' :: u)) := by
  rw [scopeSplits, if_pos rfl]
  exact List.mem_append_left _ (List.mem_map_of_mem _ (closeParenSplits_mem hnt))

/-- After the colon, one optional whitespace followed by a terminator-free
description always matches through to the end of the input. -/
theorem afterColon_complete {w d : List Char} (hw : OptWsChunk w) (hd : NoTerm d) :
    (afterColon (w ++ d)).isSome = true := by
  have hall : d.all (fun x => !isLineTerm x) = true := by
    rw [List.all_eq_true]
    intro x hx
    simp [hd x hx]
  rcases hw with rfl | ⟨c, hc, rfl⟩
  · show (afterColon d).isSome = true
    cases d with
    | nil => rfl
    | cons a r =>
      rw [afterColon]
      split
      · rfl
      · rfl
  · show (afterColon (c :: d)).isSome = true
    rw [afterColon]
    have hcnd : (isJsWs c && d.all fun x => !isLineTerm x) = true := by
      rw [hc, hall]
      rfl
    rw [if_pos hcnd]
    rfl

/-- The tail matcher `\s?(?<breaking>!)?\s?:\s?(?<description>.*)$` succeeds
on every input of the corresponding grammatical shape. -/
theorem matchTail_complete {w1 bangEnc w2 w3 d : List Char}
    (h1 : OptWsChunk w1) (hb : bangEnc = [] ∨ bangEnc = ['!'])
    (h2 : OptWsChunk w2) (h3 : OptWsChunk w3) (hd : NoTerm d) :
    (matchTail (w1 ++ (bangEnc ++ (w2 ++ ':' :: (w3 ++ d))))).isSome = true := by
  have hcd : (colonDesc (':' :: (w3 ++ d))).isSome = true := by
    rw [colonDesc, if_pos rfl]
    exact afterColon_complete h3 hd
  obtain ⟨q, hq⟩ := Option.isSome_iff_exists.mp hcd
  rw [matchTail]
  apply findSome_isSome_of_mem (optWs_mem_drop h1)
  rcases hb with rfl | rfl
  · apply findSome_isSome_of_mem (optBang_mem_none (w2 ++ ':' :: (w3 ++ d)))
    apply findSome_isSome_of_mem (optWs_mem_drop h2)
    simp [hq]
  · apply findSome_isSome_of_mem (optBang_mem_bang (w2 ++ ':' :: (w3 ++ d)))
    apply findSome_isSome_of_mem (optWs_mem_drop h2)
    simp [hq]

/-- After the type, the remaining input of a grammatical subject starts with
a non-word character, so the leading `\w+` stops exactly at the type. -/
theorem rest_head_nonword {scopeEnc w1 bangEnc w2 tail : List Char}
    (hs : scopeEnc = [] ∨ ∃ a, scopeEnc = '(' :: a)
    (h1 : OptWsChunk w1) (hb : bangEnc = [] ∨ bangEnc = ['!'])
    (h2 : OptWsChunk w2) :
    ∃ c r, scopeEnc ++ (w1 ++ (bangEnc ++ (w2 ++ ':' :: tail))) = c :: r ∧
      isWordChar c = false := by
  rcases hs with rfl | ⟨a, rfl⟩
  · rcases h1 with rfl | ⟨c, hc, rfl⟩
    · rcases hb with rfl | rfl
      · rcases h2 with rfl | ⟨c, hc, rfl⟩
        · exact ⟨':', tail, rfl, by decide⟩
        · exact ⟨c, ':' :: tail, rfl, jsWs_not_word hc⟩
      · exact ⟨'!', w2 ++ ':' :: tail, rfl, by decide⟩
    · exact ⟨c, bangEnc ++ (w2 ++ ':' :: tail), rfl, jsWs_not_word hc⟩
  · exact ⟨'(', a ++ (w1 ++ (bangEnc ++ (w2 ++ ':' :: tail))), rfl, by decide⟩

/-- Completeness of the matcher: every subject of the grammatical shape
`^<type>(\(<scope>\))?\s?!?\s?:\s?<description>$` is matched by
`CONVENTIONAL_COMMIT` (with some capture assignment). -/
theorem matchConventional_complete {s : String} {g : ConventionalGroups}
    (h : MatchesCommitGrammar s g) : ∃ g2, matchConventional s = some g2 := by
  obtain ⟨scopeEnc, bangEnc, w1, w2, w3, hs, htyne, htyw, hscope, hbang, hw1, hw2, hw3, hd⟩ := h
  have hb : bangEnc = [] ∨ bangEnc = ['!'] := by
    cases hbk : g.breaking with
    | none =>
      rw [hbk] at hbang
      have h0 : bangEnc = [] := hbang
      exact Or.inl h0
    | some b =>
      rw [hbk] at hbang
      have h0 : b = "!" ∧ bangEnc = ['!'] := hbang
      exact Or.inr h0.2
  have hsc : scopeEnc = [] ∨ ∃ a, scopeEnc = '(' :: a := by
    cases hsk : g.scope with
    | none =>
      rw [hsk] at hscope
      have h0 : scopeEnc = [] := hscope
      exact Or.inl h0
    | some sc =>
      rw [hsk] at hscope
      have h0 : scopeEnc = '(' :: (sc.toList ++ [')']) ∧ NoTerm sc.toList := hscope
      exact Or.inr ⟨sc.toList ++ [')'], h0.1⟩
  obtain ⟨c, r, hrest, hcw⟩ :=
    @rest_head_nonword scopeEnc w1 bangEnc w2 (w3 ++ g.description.toList) hsc hw1 hb hw2
  have hs2 : s.toList
      = g.type.toList
        ++ (scopeEnc ++ (w1 ++ (bangEnc ++ (w2 ++ ':' :: (w3 ++ g.description.toList))))) := by
    rw [hs]
    simp [List.append_assoc]
  have hsplit := @takeWhile_append_eq isWordChar g.type.toList c r htyw hcw
  have htake : s.toList.takeWhile isWordChar = g.type.toList := by
    rw [hs2, hrest]
    exact hsplit.1
  have hdrop : s.toList.dropWhile isWordChar
      = scopeEnc ++ (w1 ++ (bangEnc ++ (w2 ++ ':' :: (w3 ++ g.description.toList)))) := by
    rw [hs2, hrest]
    exact hsplit.2
  have hemp : g.type.toList.isEmpty = false := by
    cases hty : g.type.toList with
    | nil => exact absurd hty htyne
    | cons a l => rfl
  have hmt := matchTail_complete hw1 hb hw2 hw3 hd
  rw [matchConventional, htake, hdrop]
  rw [if_neg (by simpa using htyne)]
  rw [← Option.isSome_iff_exists]
  cases hsk : g.scope with
  | none =>
    rw [hsk] at hscope
    have h0 : scopeEnc = [] := hscope
    subst h0
    exact findSome_isSome_of_mem (scopeSplits_mem_none _) (by simpa using hmt)
  | some sc =>
    rw [hsk] at hscope
    have h0 : scopeEnc = '(' :: (sc.toList ++ [')']) ∧ NoTerm sc.toList := hscope
    obtain ⟨h1, hnt⟩ := h0
    subst h1
    rw [show ('(' :: (sc.toList ++ [')']))
          ++ (w1 ++ (bangEnc ++ (w2 ++ ':' :: (w3 ++ g.description.toList))))
        = '(' :: (sc.toList
          ++ ')' :: (w1 ++ (bangEnc ++ (w2 ++ ':' :: (w3 ++ g.description.toList)))))
      from by simp]
    exact findSome_isSome_of_mem (scopeSplits_mem_scope hnt) (by simpa using hmt)

/-! ## Commit logs, tag extraction and release grouping
(`src/structs/Changelog.ts` `Changelog.Convert`, `Changelog.GroupByRelease`,
`src/util/regex.ts` `git.TAG`) -/

/-- A raw commit record as returned by `simple-git` (the fields the
changelog engine uses). -/
structure BaseLog where
  hash : String
  short_hash : String
  date : String
  message : String
  refs : String
  body : String
deriving DecidableEq, Repr

/-- A commit record whose message has been classified. -/
structure Log where
  hash : String
  short_hash : String
  date : String
  message : MessageVal
  refs : String
  body : String
deriving DecidableEq, Repr

/-- `Changelog.Convert`: classify the commit subject, keeping every other
field of the log. -/
def Convert (log : BaseLog) : Log :=
  { hash := log.hash, short_hash := log.short_hash, date := log.date
    message := classify log.message, refs := log.refs, body := log.body }

/-- One attempt of the unanchored regex `tag:\\s*(?<version>[^,\\s]+)`
(`git.TAG`) at the current position: the literal `tag:`, any run of
whitespace, then a maximal nonempty run of characters that are neither a
comma nor whitespace. -/
def tryTagAt (cs : List Char) : Option String :=
  match cs with
  | 't' :: 'a' :: 'g' :: ':' :: r =>
    if ((r.dropWhile isJsWs).takeWhile fun c => !(c = ',' || isJsWs c)).isEmpty then
      none
    else
      some ((r.dropWhile isJsWs).takeWhile fun c => !(c = ',' || isJsWs c)).asString
  | _ => none

/-- Leftmost match of `git.TAG` over the refs string, the search the
JavaScript engine performs for an unanchored regex. -/
def findTag : List Char → Option String
  | [] => none
  | c :: rest =>
    match tryTagAt (c :: rest) with
    | some v => some v
    | none => findTag rest

/-- A release bucket: the spread fields of the tag-bearing commit that
opened it (`meta`, absent for the lazily created unreleased bucket), the
body commits pushed into it, and its version label. -/
structure Release where
  meta : Option Log
  commits : List Log
  version : String
deriving DecidableEq, Repr

/-- JavaScript object assignment on a string-keyed dictionary: an existing
key is updated in place, a new key is appended (insertion order). -/
def setKey {α : Type} : List (String × α) → String → α → List (String × α)
  | [], k, v => [(k, v)]
  | (k0, v0) :: rest, k, v =>
    if k0 = k then (k0, v) :: rest else (k0, v0) :: setKey rest k v

/-- JavaScript object lookup on a string-keyed dictionary. -/
def getKey {α : Type} : List (String × α) → String → Option α
  | [], _ => none
  | (k0, v0) :: rest, k => if k0 = k then some v0 else getKey rest k

/-- The loop state of `Changelog.GroupByRelease`: the current version
label and the releases dictionary. -/
structure GroupState where
  version : String
  releases : List (String × Release)

/-- One iteration of the `Changelog.GroupByRelease` loop. -/
def groupStep (st : GroupState) (baseLog : BaseLog) : GroupState :=
  match findTag baseLog.refs.toList with
  | some v =>
    { version := v
      releases := setKey st.releases v
        { meta := some (Convert baseLog), commits := [], version := v } }
  | none =>
    match getKey st.releases st.version with
    | some rel =>
      { version := st.version
        releases := setKey st.releases st.version
          { rel with commits := rel.commits ++ [Convert baseLog] } }
    | none =>
      { version := st.version
        releases := st.releases ++
          [(st.version,
            { meta := none, commits := [Convert baseLog], version := st.version })] }

/-- `Changelog.GroupByRelease`: fold the newest-first log list, opening a
release per tag-bearing commit and pushing untagged commits into the
release at the current label (initially the unreleased header). -/
def GroupByRelease (logs : List BaseLog) (unreleasedHeader : String) :
    List (String × Release) :=
  (logs.foldl groupStep { version := unreleasedHeader, releases := [] }).releases

theorem mem_setKey {α : Type} {l : List (String × α)} {k : String} {v : α}
    {e : String × α} (h : e ∈ setKey l k v) : e = (k, v) ∨ e ∈ l := by
  induction l with
  | nil => simpa [setKey] using h
  | cons p rest ih =>
    rw [setKey] at h
    split at h
    · rename_i hk
      rcases List.mem_cons.mp h with h | h
      · exact Or.inl (by rw [h, hk])
      · exact Or.inr (List.mem_cons.mpr (Or.inr h))
    · rcases List.mem_cons.mp h with h | h
      · exact Or.inr (List.mem_cons.mpr (Or.inl h))
      · rcases ih h with h | h
        · exact Or.inl h
        · exact Or.inr (List.mem_cons.mpr (Or.inr h))

theorem getKey_eq_some_mem {α : Type} {l : List (String × α)} {k : String}
    {v : α} (h : getKey l k = some v) : (k, v) ∈ l := by
  induction l with
  | nil => simp [getKey] at h
  | cons p rest ih =>
    rw [getKey] at h
    split at h
    · rename_i hk
      obtain rfl := Option.some.inj h
      exact List.mem_cons.mpr (Or.inl (by rw [← hk]))
    · exact List.mem_cons.mpr (Or.inr (ih h))

theorem groupFold_commits {P : Log → Prop} :
    ∀ (logs : List BaseLog) (st : GroupState),
      (∀ e ∈ st.releases, ∀ l ∈ e.2.commits, P l) →
      (∀ b ∈ logs, findTag b.refs.toList = none → P (Convert b)) →
      ∀ e ∈ (logs.foldl groupStep st).releases, ∀ l ∈ e.2.commits, P l := by
  intro logs
  induction logs with
  | nil => intro st hst _ e he l hl; exact hst e he l hl
  | cons b rest ih =>
    intro st hst hlogs
    rw [List.foldl_cons]
    refine ih (groupStep st b) ?_ ?_
    · intro e he l hl
      rw [groupStep] at he
      cases hft : findTag b.refs.toList with
      | some v =>
        rw [hft] at he
        rcases mem_setKey he with rfl | he
        · simp at hl
        · exact hst e he l hl
      | none =>
        rw [hft] at he
        cases hget : getKey st.releases st.version with
        | some rel =>
          rw [hget] at he
          rcases mem_setKey he with rfl | he
          · rcases List.mem_append.mp hl with hl | hl
            · exact hst _ (getKey_eq_some_mem hget) l hl
            · obtain rfl := List.mem_singleton.mp hl
              exact hlogs b (List.mem_cons_self b rest) hft
          · exact hst e he l hl
        | none =>
          rw [hget] at he
          rcases List.mem_append.mp he with he | he
          · exact hst e he l hl
          · obtain rfl := List.mem_singleton.mp he
            obtain rfl := List.mem_singleton.mp hl
            exact hlogs b (List.mem_cons_self b rest) hft
    · intro c hc hft
      exact hlogs c (List.mem_cons.mpr (Or.inr hc)) hft

/-- Example commits for the release-grouping claim: `exA` untagged (newest),
`exB` carrying `tag: v1.0.0`, `exC` untagged (oldest). -/
def exA : BaseLog :=
  { hash := "a100", short_hash := "a1", date := "2024-03-03"
    message := "update readme", refs := "HEAD -> main", body := "" }

/-- The tag-bearing example commit. -/
def exB : BaseLog :=
  { hash := "b200", short_hash := "b2", date := "2024-02-02"
    message := "release", refs := "tag: v1.0.0", body := "" }

/-- The oldest example commit. -/
def exC : BaseLog :=
  { hash := "c300", short_hash := "c3", date := "2024-01-01"
    message := "initial work", refs := "", body := "" }

/-- C3: grouping a newest-first commit list records each tag-bearing
commit only as the `meta`data of the release it opens -- every body commit
of every bucket is the conversion of an untagged input commit -- and
appends untagged commits to the release at the current label, created
lazily under the unreleased label; on the example
`[exA (no tag), exB (tag v1.0.0), exC (no tag)]` the result is
`Unreleased ↦ [exA]`, `v1.0.0 ↦ [exC]` with `exB` only as metadata. -/
theorem groupByRelease_metadata_and_example :
    (∀ (logs : List BaseLog) (hdr : String),
      ∀ e ∈ GroupByRelease logs hdr, ∀ l ∈ e.2.commits,
        ∃ b ∈ logs, findTag b.refs.toList = none ∧ l = Convert b) ∧
    GroupByRelease [exA, exB, exC] "Unreleased" =
      [("Unreleased",
        { meta := none, commits := [Convert exA], version := "Unreleased" }),
       ("v1.0.0",
        { meta := some (Convert exB), commits := [Convert exC]
          version := "v1.0.0" })] := by
  constructor
  · intro logs hdr e he l hl
    refine @groupFold_commits
      (fun x => ∃ b ∈ logs, findTag b.refs.toList = none ∧ x = Convert b)
      logs _ ?_ ?_ e he l hl
    · intro e he
      simp only [GroupState.mk.injEq] at he
      simp at he
    · intro b hb hft
      exact ⟨b, hb, hft, rfl⟩
  · decide

/-- Witness for the universally quantified part of C3, at the concrete
three-commit example. -/
theorem groupByRelease_metadata_and_example_witness :
    ∃ b ∈ [exA, exB, exC], findTag b.refs.toList = none ∧
      Convert exC = Convert b := by
  refine groupByRelease_metadata_and_example.1 [exA, exB, exC] "Unreleased"
    ("v1.0.0",
      { meta := some (Convert exB), commits := [Convert exC]
        version := "v1.0.0" })
    (by decide) (Convert exC) (by decide)

/-! ## Scope sort inside a type group (`Changelog.GenerateSection`)

Within one type group the source sorts bullets with

```
logs.sort((a, b) => {
  if (a.message.scope && b.message.scope === undefined) return 1;
  else if (a.message.scope === undefined && b.message.scope) return -1;
  else if (a.message.scope && b.message.scope) return a.message.scope.localeCompare(b.message.scope);
  return 0;
});
```

`Array.prototype.sort` is stable (ECMAScript 2019); we model it as
insertion sort over the relation `scopeCmp a b ≤ 0`, which realizes the
stable-sort contract.  `localeCompare` is modelled as code-point
lexicographic three-way comparison.  JavaScript truthiness matters: an
empty-string scope is falsy, so it falls through every branch of the
comparator and ties with everything. -/

/-- The scope of a log's classified message (`undefined` when the message
is raw or the scope group did not participate). -/
def scopeOf (l : Log) : Option String :=
  match l.message with
  | MessageVal.raw _ => none
  | MessageVal.conv m => m.scope

/-- JavaScript truthiness of `log.message.scope`: present and nonempty. -/
def scopeTruthy (l : Log) : Bool :=
  match scopeOf l with
  | none => false
  | some s => !s.isEmpty

/-- Code-point lexicographic strict comparison of character lists, the
model of JavaScript string ordering. -/
def charListLt : List Char → List Char → Bool
  | _, [] => false
  | [], _ :: _ => true
  | a :: as, b :: bs =>
    if a < b then true else if b < a then false else charListLt as bs

/-- `String.prototype.localeCompare`, modelled as code-point lexicographic
three-way comparison. -/
def localeCompare (x y : String) : Int :=
  if charListLt x.data y.data then -1
  else if charListLt y.data x.data then 1
  else 0

/-- The comparator passed to `logs.sort` in `GenerateSection`. -/
def scopeCmp (a b : Log) : Int :=
  if scopeTruthy a ∧ scopeOf b = none then 1
  else if scopeOf a = none ∧ scopeTruthy b then -1
  else if scopeTruthy a ∧ scopeTruthy b then
    localeCompare ((scopeOf a).getD "") ((scopeOf b).getD "")
  else 0

/-- The scope sort of `GenerateSection`: the ECMAScript stable sort with
the scope comparator, modelled as insertion sort. -/
def sortByScope (logs : List Log) : List Log :=
  List.insertionSort (fun a b => scopeCmp a b ≤ 0) logs

/-- Order on optional scopes: absent before present, present scopes
lexicographic. -/
def optScopeLe : Option String → Option String → Prop
  | none, _ => True
  | some _, none => False
  | some x, some y => charListLt y.data x.data = false

/-- The ordering the spec describes on rendered bullets: unscoped before
scoped, scopes lexicographic. -/
def ScopeLe (a b : Log) : Prop := optScopeLe (scopeOf a) (scopeOf b)

theorem charListLt_irrefl : ∀ l : List Char, charListLt l l = false := by
  intro l
  induction l with
  | nil => rfl
  | cons a as ih => simp [charListLt, ih]

theorem charListLt_asymm : ∀ {x y : List Char},
    charListLt x y = true → charListLt y x = false := by
  intro x
  induction x with
  | nil =>
    intro y h
    cases y with
    | nil => simp [charListLt] at h
    | cons b bs => rfl
  | cons a as ih =>
    intro y h
    cases y with
    | nil => simp [charListLt] at h
    | cons b bs =>
      rw [charListLt] at h ⊢
      by_cases hab : a < b
      · simp [hab, asymm hab]
      · by_cases hba : b < a
        · simp [hab, hba] at h
        · simp only [hab, hba, if_false] at h ⊢
          exact ih h

theorem charListLt_not_lt_trans : ∀ {c b a : List Char},
    charListLt b a = false → charListLt c b = false → charListLt c a = false := by
  intro c
  induction c with
  | nil =>
    intro b a h1 h2
    cases b with
    | nil =>
      cases a with
      | nil => rfl
      | cons x xs => simp [charListLt] at h1
    | cons y ys => simp [charListLt] at h2
  | cons z zs ih =>
    intro b a h1 h2
    cases a with
    | nil => rfl
    | cons x xs =>
      cases b with
      | nil => simp [charListLt] at h1
      | cons y ys =>
        rw [charListLt] at h1 h2 ⊢
        by_cases hyx : y < x
        · simp [hyx] at h1
        · by_cases hzy : z < y
          · simp [hzy] at h2
          · have hxy : x ≤ y := not_lt.mp hyx
            have hyz : y ≤ z := not_lt.mp hzy
            have hzx : ¬ z < x := fun h => absurd (lt_of_lt_of_le h (le_trans hxy hyz)) (lt_irrefl z)
            by_cases hxz : x < z
            · simp [hzx, hxz]
            · have hxz2 : x = z := le_antisymm (le_trans hxy hyz) (not_lt.mp hxz)
              have hyx2 : y = x := le_antisymm (by rw [hxz2]; exact hyz) hxy
              have hxy2 : ¬ x < y := by rw [hyx2]; exact lt_irrefl x
              have hyz2 : ¬ y < z := by rw [hyx2, hxz2]; exact lt_irrefl z
              rw [if_neg hyx, if_neg hxy2] at h1
              rw [if_neg hzy, if_neg hyz2] at h2
              rw [if_neg hzx, if_neg hxz]
              exact ih h1 h2

theorem localeCompare_nonpos_iff {x y : String} :
    localeCompare x y ≤ 0 ↔ charListLt y.data x.data = false := by
  unfold localeCompare
  cases hxy : charListLt x.data y.data with
  | true => simp [hxy, charListLt_asymm hxy]
  | false =>
    cases hyx : charListLt y.data x.data with
    | true => simp [hxy, hyx]
    | false => simp [hxy, hyx]

theorem scopeCmp_eq_zero_of_key_eq {a b : Log} (h : scopeOf a = scopeOf b) :
    scopeCmp a b = 0 := by
  simp only [scopeCmp, scopeTruthy, ← h]
  cases hA : scopeOf a with
  | none => simp
  | some s =>
    by_cases hs : s.isEmpty <;>
      simp [hs, localeCompare, charListLt_irrefl]

theorem scopeCmp_good_le_iff {a b : Log} (ha : scopeOf a ≠ some "")
    (hb : scopeOf b ≠ some "") : scopeCmp a b ≤ 0 ↔ ScopeLe a b := by
  rcases hA : scopeOf a with _ | x <;> rcases hB : scopeOf b with _ | y <;>
    simp only [scopeCmp, scopeTruthy, ScopeLe, optScopeLe, hA, hB]
  · simp
  · have hy : ¬ y.isEmpty := by
      intro hcontra
      exact hb (by rw [hB, (String.isEmpty_iff _).mp hcontra])
    simp [hy]
  · have hx : ¬ x.isEmpty := by
      intro hcontra
      exact ha (by rw [hA, (String.isEmpty_iff _).mp hcontra])
    simp [hx]
  · have hx : ¬ x.isEmpty := by
      intro hcontra
      exact ha (by rw [hA, (String.isEmpty_iff _).mp hcontra])
    have hy : ¬ y.isEmpty := by
      intro hcontra
      exact hb (by rw [hB, (String.isEmpty_iff _).mp hcontra])
    simp [hx, hy, localeCompare_nonpos_iff]

theorem optScopeLe_trans {o1 o2 o3 : Option String} (h1 : optScopeLe o1 o2)
    (h2 : optScopeLe o2 o3) : optScopeLe o1 o3 := by
  cases o1 with
  | none => trivial
  | some x =>
    cases o2 with
    | none => exact absurd h1 (by simp [optScopeLe])
    | some y =>
      cases o3 with
      | none => exact absurd h2 (by simp [optScopeLe])
      | some z =>
        exact charListLt_not_lt_trans (h1 : charListLt y.data x.data = false)
          (h2 : charListLt z.data y.data = false)

theorem scopeLe_trans {a b c : Log} (h1 : ScopeLe a b) (h2 : ScopeLe b c) :
    ScopeLe a c := optScopeLe_trans h1 h2

theorem pairwise_orderedInsert {a : Log} :
    ∀ {l : List Log}, l.Pairwise ScopeLe → (∀ x ∈ l, scopeOf x ≠ some "") →
      scopeOf a ≠ some "" →
      (List.orderedInsert (fun x y => scopeCmp x y ≤ 0) a l).Pairwise ScopeLe := by
  intro l
  induction l with
  | nil => intro _ _ _; simp [List.orderedInsert]
  | cons b t ih =>
    intro hl hg ha
    rw [List.orderedInsert]
    have hgb : scopeOf b ≠ some "" := hg b (List.mem_cons_self b t)
    have hgt : ∀ x ∈ t, scopeOf x ≠ some "" :=
      fun x hx => hg x (List.mem_cons.mpr (Or.inr hx))
    obtain ⟨hbt, hpt⟩ := List.pairwise_cons.mp hl
    split
    · rename_i hle
      have hab : ScopeLe a b := (scopeCmp_good_le_iff ha hgb).mp hle
      refine List.pairwise_cons.mpr ⟨?_, hl⟩
      intro x hx
      rcases List.mem_cons.mp hx with rfl | hx
      · exact hab
      · exact scopeLe_trans hab (hbt x hx)
    · rename_i hgt2
      have hba : ScopeLe b a := by
        rcases hA : scopeOf a with _ | x
        · exact absurd (by simp [scopeCmp, scopeTruthy, hA] at hgt2 ⊢; omega) hgt2
        · rcases hB : scopeOf b with _ | y
          · simp [ScopeLe, optScopeLe, hB]
          · have hcmp : ¬ scopeCmp a b ≤ 0 := hgt2
            rw [scopeCmp_good_le_iff ha hgb] at hcmp
            simp only [ScopeLe, optScopeLe, hA, hB] at hcmp ⊢
            have hlt : charListLt y.data x.data = true := by
              cases hc : charListLt y.data x.data
              · exact absurd hc hcmp
              · rfl
            exact charListLt_asymm hlt
      refine List.pairwise_cons.mpr ⟨?_, ih hpt hgt ha⟩
      intro x hx
      rcases (List.mem_orderedInsert _).mp hx with rfl | hx
      · exact hba
      · exact hbt x hx

theorem pairwise_sortByScope :
    ∀ (l : List Log), (∀ x ∈ l, scopeOf x ≠ some "") →
      (sortByScope l).Pairwise ScopeLe := by
  intro l
  induction l with
  | nil => intro _; simp [sortByScope]
  | cons a t ih =>
    intro hg
    have hga : scopeOf a ≠ some "" := hg a (List.mem_cons_self a t)
    have hgt : ∀ x ∈ t, scopeOf x ≠ some "" :=
      fun x hx => hg x (List.mem_cons.mpr (Or.inr hx))
    have hsorted := ih hgt
    have hmem : ∀ x ∈ sortByScope t, scopeOf x ≠ some "" := by
      intro x hx
      exact hgt x ((List.mem_insertionSort _).mp hx)
    exact pairwise_orderedInsert hsorted hmem hga

theorem filter_orderedInsert_neg {p : Log → Bool} {a : Log}
    (hpa : p a = false) :
    ∀ (l : List Log),
      (List.orderedInsert (fun x y => scopeCmp x y ≤ 0) a l).filter p =
        l.filter p := by
  intro l
  induction l with
  | nil => simp [List.orderedInsert, hpa]
  | cons b t ih =>
    rw [List.orderedInsert]
    split
    · simp [List.filter_cons, hpa]
    · rw [List.filter_cons, List.filter_cons, ih]

theorem filter_orderedInsert_pos {p : Log → Bool} {a : Log}
    (hpa : p a = true) :
    ∀ (l : List Log), (∀ b ∈ l, ¬ scopeCmp a b ≤ 0 → p b = false) →
      (List.orderedInsert (fun x y => scopeCmp x y ≤ 0) a l).filter p =
        a :: l.filter p := by
  intro l
  induction l with
  | nil => simp [List.orderedInsert, hpa]
  | cons b t ih =>
    intro hpass
    rw [List.orderedInsert]
    split
    · simp [List.filter_cons, hpa]
    · rename_i hnle
      have hpb : p b = false :=
        hpass b (List.mem_cons_self b t) (by simpa using hnle)
      rw [List.filter_cons, List.filter_cons]
      simp only [hpb]
      exact ih fun c hc hnc => hpass c (List.mem_cons.mpr (Or.inr hc)) hnc

theorem filter_sortByScope (v : Option String) :
    ∀ (l : List Log),
      (sortByScope l).filter (fun x => decide (scopeOf x = v)) =
        l.filter (fun x => decide (scopeOf x = v)) := by
  intro l
  induction l with
  | nil => simp [sortByScope]
  | cons a t ih =>
    show (List.orderedInsert _ a (sortByScope t)).filter _ = _
    by_cases hpa : scopeOf a = v
    · rw [filter_orderedInsert_pos (by simp [hpa]) (sortByScope t) ?_, ih]
      · simp [List.filter_cons, hpa]
      · intro b _ hnle
        simp only [decide_eq_false_iff_not]
        intro hb
        exact hnle (le_of_eq (scopeCmp_eq_zero_of_key_eq (by rw [hpa, hb])))
    · rw [filter_orderedInsert_neg (by simp [hpa]) (sortByScope t), ih]
      simp [List.filter_cons, hpa]

/-- A conventional example log with a given hash and scope. -/
def mkConvLog (h : String) (sc : Option String) : Log :=
  { hash := h, short_hash := h, date := "", refs := "", body := ""
    message := MessageVal.conv
      { type := "feat", scope := sc, breaking := false, description := "d" } }

/-- Example bullet with scope `"b"` (first in input). -/
def exX : Log := mkConvLog "x" (some "b")

/-- Example bullet without scope. -/
def exY : Log := mkConvLog "y" none

/-- Example bullet with scope `"a"`. -/
def exZ : Log := mkConvLog "z" (some "a")

/-- Counterexample bullet with scope `"b"`. -/
def exP : Log := mkConvLog "p" (some "b")

/-- Counterexample bullet with the empty scope (as produced by a
`type(): description` subject). -/
def exQ : Log := mkConvLog "q" (some "")

/-- C4 (amended): the scope sort of a type group is a permutation; on
lists with no empty-string scope it is ordered with every unscoped commit
before every scoped one and scoped commits lexicographic by scope; equal
scope keys always preserve the original order (stability); and the
spec's example `[X(scope b), Y(no scope), Z(scope a)]` sorts to
`[Y, Z, X]`.  A commit whose captured scope is the empty string is falsy
in the comparator and ties with every opponent instead of comparing
lexicographically. -/
theorem sortByScope_order_stable_example :
    (∀ l : List Log, (sortByScope l).Perm l) ∧
    (∀ l : List Log, (∀ x ∈ l, scopeOf x ≠ some "") →
      (sortByScope l).Pairwise ScopeLe) ∧
    (∀ (l : List Log) (v : Option String),
      (sortByScope l).filter (fun x => decide (scopeOf x = v)) =
        l.filter (fun x => decide (scopeOf x = v))) ∧
    sortByScope [exX, exY, exZ] = [exY, exZ, exX] := by
  refine ⟨?_, pairwise_sortByScope, ?_, by decide⟩
  · intro l
    exact List.perm_insertionSort _ l
  · intro l v
    exact filter_sortByScope v l

/-- Witness for the ordering part of C4 at the concrete example list. -/
theorem sortByScope_order_stable_example_witness :
    (sortByScope [exX, exY, exZ]).Pairwise ScopeLe :=
  sortByScope_order_stable_example.2.1 [exX, exY, exZ] (by decide)

/-- C4 counterexample: `exP` has scope `"b"`, `exQ` has scope `""` (both
scoped commits), lexicographically `"b"` does not precede `""`, yet the
source sort leaves `[exP, exQ]` unchanged instead of placing the
lexicographically smaller `""` first: the empty-string scope is falsy in
the comparator, which therefore returns `0` and ties. -/
theorem sortByScope_lex_counterexample :
    scopeOf exP = some "b" ∧ scopeOf exQ = some "" ∧
    charListLt "".data "b".data = true ∧
    sortByScope [exP, exQ] = [exP, exQ] := by
  refine ⟨by decide, by decide, by decide, by decide⟩

/-! ## Section renderer (`Changelog.GenerateSection`, `GroupLogsWithType`,
`LogToString`, `GenerateHashLink`, `GenerateCompareLink`)

The renderer is modelled as a pure function of the repository URL (the
source resolves it through `GitURL`, an I/O suspension point), the current
release, the following (`previous`) release and the configuration. -/

/-- A commit-type rendering option (`schemas/config/CommitType.ts`):
`hidden` defaults to `false`, `name` is optional. -/
structure CommitType where
  type : String
  hidden : Bool
  name : Option String
deriving DecidableEq, Repr

/-- The configuration fields the changelog engine reads
(`schemas/config/index.ts`). -/
structure Config where
  types : Option (List CommitType)
  unreleasedHeader : String
  includeBody : Bool
  includeNonConventionalCommits : Bool
deriving DecidableEq, Repr

/-- Append a conventional log to its type bucket (Map insertion order),
the body of the `GroupLogsWithType` loop. -/
def pushType (m : List (String × List Log)) (ty : String) (l : Log) :
    List (String × List Log) :=
  match getKey m ty with
  | some logs => setKey m ty (logs ++ [l])
  | none => m ++ [(ty, [l])]

/-- `Changelog.GroupLogsWithType`: bucket conventional logs by type in
first-seen order and collect non-conventional logs separately. -/
def GroupLogsWithType (logs : List Log) :
    List (String × List Log) × List Log :=
  logs.foldl
    (fun acc l =>
      match l.message with
      | MessageVal.raw _ => (acc.1, acc.2 ++ [l])
      | MessageVal.conv m => (pushType acc.1 m.type l, acc.2))
    ([], [])

/-- `String.prototype.toLowerCase`, modelled characterwise. -/
def toLowerList (s : String) : List Char := s.data.map Char.toLower

/-- `config.types?.find((t) => t.type.toLowerCase() === type.toLowerCase())`. -/
def findTypeOption (types : Option (List CommitType)) (ty : String) :
    Option CommitType :=
  match types with
  | none => none
  | some ts => ts.find? fun t => toLowerList t.type == toLowerList ty

/-- Whether a type is declared hidden (`options?.hidden`, default
false). -/
def typeHidden (config : Config) (ty : String) : Bool :=
  ((findTypeOption config.types ty).map fun o => o.hidden).getD false

/-- `Changelog.GenerateHashLink`. -/
def GenerateHashLink (url : String) (log : Log) : String :=
  "<code>[" ++ log.short_hash ++ "](" ++ url ++ "/commit/" ++ log.hash ++
    ")</code>"

/-- `Changelog.GenerateCompareLink`. -/
def GenerateCompareLink (url previous current : String) : String :=
  url ++ "/compare/" ++ previous ++ "..." ++ current

/-- `body.split('\n')` (JavaScript `String.prototype.split` on a
one-character separator). -/
def splitOnNl : List Char → List (List Char)
  | [] => [[]]
  | c :: rest =>
    if c = '\n' then [] :: splitOnNl rest
    else
      match splitOnNl rest with
      | [] => [[c]]
      | h :: t => (c :: h) :: t

/-- `lines.join('\n')` (JavaScript `Array.prototype.join`). -/
def joinLines : List String → String
  | [] => ""
  | [x] => x
  | x :: y :: rest => x ++ "\n" ++ joinLines (y :: rest)

/-- `Changelog.LogToString`: the bullet for one commit, with the commit
body appended as indented lines when enabled (scope prefix only when the
scope is truthy). -/
def LogToString (log : Log) (url : String) (config : Config) : String :=
  let hash := GenerateHashLink url log
  let first :=
    match log.message with
    | MessageVal.raw s => "- " ++ s ++ " " ++ hash
    | MessageVal.conv m =>
      "- " ++
        (match m.scope with
          | some sc => if sc.isEmpty then "" else "**" ++ sc ++ "**: "
          | none => "") ++
        m.description ++ " " ++ hash
  if config.includeBody ∧ log.body.length > 0 then
    joinLines ([first, "\n"] ++
      (splitOnNl log.body.data).map fun line => "\t" ++ line.asString)
  else first

/-- The date field the renderer reads from a release: present exactly
when the release was opened by a tag-bearing commit (the spread of that
commit's fields). -/
def releaseDateOpt (r : Release) : Option String :=
  r.meta.map fun l => l.date

/-- JavaScript falsiness of `current.date`: absent or the empty string. -/
def dateFalsy (r : Release) : Bool :=
  match releaseDateOpt r with
  | none => true
  | some d => d.isEmpty

/-- JavaScript truthiness of `previous?.version`. -/
def prevVersionTruthy : Option Release → Bool
  | none => false
  | some p => !p.version.isEmpty

/-- The header line of a section: version alone for the unreleased
release, version plus compare link and date when a labelled previous
release exists, version plus date otherwise. -/
def sectionHeader (url : String) (current : Release)
    (previous : Option Release) : String :=
  if dateFalsy current then "## " ++ current.version ++ "\n"
  else
    match previous with
    | some p =>
      if !p.version.isEmpty then
        "## [" ++ current.version ++ "](" ++
          GenerateCompareLink url p.version current.version ++ ") (" ++
          (releaseDateOpt current).getD "" ++ ")\n"
      else
        "## " ++ current.version ++ " (" ++
          (releaseDateOpt current).getD "" ++ ")\n"
    | none =>
      "## " ++ current.version ++ " (" ++
        (releaseDateOpt current).getD "" ++ ")\n"

/-- The lines pushed for non-conventional commits (only when the flag is
enabled and there is at least one). -/
def nonConvLines (url : String) (config : Config) (noneLogs : List Log) :
    List String :=
  if config.includeNonConventionalCommits ∧ noneLogs.length > 0 then
    noneLogs.map fun l => LogToString l url config ++ "\n"
  else []

/-- The lines pushed for one type group: nothing when hidden, otherwise
the subheader (display name or raw type) followed by the scope-sorted
bullets. -/
def typeSection (url : String) (config : Config) (ty : String)
    (logs : List Log) : List String :=
  let opt := findTypeOption config.types ty
  if (opt.map fun o => o.hidden).getD false then []
  else
    ("### " ++ ((opt.bind fun o => o.name).getD ty) ++ "\n") ::
      (sortByScope logs).map fun l => LogToString l url config ++ "\n"

/-- The full `lines` array built by `GenerateSection` before joining. -/
def sectionLines (url : String) (current : Release)
    (previous : Option Release) (config : Config) : List String :=
  sectionHeader url current previous ::
    (nonConvLines url config (GroupLogsWithType current.commits).2 ++
      (((GroupLogsWithType current.commits).1.map fun p =>
        typeSection url config p.1 p.2).flatten))

/-- The markdown link substituted for an issue token. -/
def issueLink (url idStr : String) : String :=
  "[#" ++ idStr ++ "](" ++ url ++ "/issues/" ++ idStr ++ ")"

/-- The global replacement of `#(?<id>\d+)` tokens by issue links
(leftmost, non-overlapping, greedy digits). -/
def replaceIssuesAux (url : String) : List Char → List Char
  | [] => []
  | c :: rest =>
    if c = '#' then
      if (rest.takeWhile Char.isDigit).isEmpty then
        c :: replaceIssuesAux url rest
      else
        (issueLink url (rest.takeWhile Char.isDigit).asString).data ++
          replaceIssuesAux url (rest.drop (rest.takeWhile Char.isDigit).length)
    else c :: replaceIssuesAux url rest
termination_by l => l.length
decreasing_by
  · simp
  · simp only [List.length_cons, List.length_drop]
    omega
  · simp

/-- `string.replace(new RegExp(regex.ISSUES, 'g'), ...)`. -/
def replaceIssues (url s : String) : String :=
  (replaceIssuesAux url s.data).asString

/-- `Changelog.GenerateSection`: build the lines, suppress a dateless
section whose only line is the header, otherwise join and linkify issue
tokens. -/
def GenerateSection (url : String) (current : Release)
    (previous : Option Release) (config : Config) : String :=
  if dateFalsy current ∧ (sectionLines url current previous config).length = 1 then
    ""
  else replaceIssues url (joinLines (sectionLines url current previous config))

/-- Zero bullets are emitted for the release: non-conventional commits
are disabled or absent, and every type group is hidden. -/
def NoBullets (current : Release) (config : Config) : Prop :=
  (config.includeNonConventionalCommits = false ∨
    (GroupLogsWithType current.commits).2 = []) ∧
  ∀ p ∈ (GroupLogsWithType current.commits).1, typeHidden config p.1 = true

theorem string_data_append (s t : String) : (s ++ t).data = s.data ++ t.data := rfl

theorem replaceIssuesAux_ne_nil {url : String} {l : List Char}
    (h : l ≠ []) : replaceIssuesAux url l ≠ [] := by
  cases l with
  | nil => exact absurd rfl h
  | cons c rest =>
    rw [replaceIssuesAux]
    split
    · split
      · simp
      · intro hcontra
        rcases List.append_eq_nil.mp hcontra with ⟨h1, h2⟩
        simp [issueLink, string_data_append] at h1
    · simp

theorem sectionHeader_data_ne_nil {url : String} {current : Release}
    {previous : Option Release} :
    (sectionHeader url current previous).data ≠ [] := by
  rw [sectionHeader.eq_def]
  split
  · simp [string_data_append]
  · split
    · split <;> simp [string_data_append]
    · simp [string_data_append]

theorem joinLines_data_ne_nil {h : String} {t : List String}
    (hh : h.data ≠ []) : (joinLines (h :: t)).data ≠ [] := by
  cases t with
  | nil => exact hh
  | cons y rest =>
    rw [joinLines]
    intro hcontra
    rw [show h ++ "\n" ++ joinLines (y :: rest) = h ++ ("\n" ++ joinLines (y :: rest)) by
      rw [String.append_assoc]] at hcontra
    rw [string_data_append] at hcontra
    exact hh (List.append_eq_nil.mp hcontra).1

theorem nonConvLines_eq_nil_iff {url : String} {config : Config}
    {ls : List Log} :
    nonConvLines url config ls = [] ↔
      (config.includeNonConventionalCommits = false ∨ ls = []) := by
  rw [nonConvLines]
  split
  · rename_i hcond
    obtain ⟨hflag, hlen⟩ := hcond
    have hne : ls ≠ [] := by
      intro hcontra
      rw [hcontra] at hlen
      simp at hlen
    simp [List.map_eq_nil_iff, hne, hflag]
  · rename_i hcond
    rw [Classical.not_and_iff_or_not_not] at hcond
    simp only [true_iff]
    rcases hcond with hflag | hlen
    · exact Or.inl (Bool.not_eq_true _ ▸ (by simpa using hflag))
    · right
      have : ls.length = 0 := by omega
      exact List.length_eq_zero.mp this

theorem typeSection_eq_nil_iff {url : String} {config : Config}
    {ty : String} {logs : List Log} :
    typeSection url config ty logs = [] ↔ typeHidden config ty = true := by
  rw [typeSection, typeHidden]
  split
  · rename_i hcond
    simpa using hcond
  · rename_i hcond
    simpa using hcond

theorem sectionLines_length_one_iff {url : String} {current : Release}
    {previous : Option Release} {config : Config} :
    (sectionLines url current previous config).length = 1 ↔
      NoBullets current config := by
  rw [sectionLines, List.length_cons]
  have hone : ∀ n : Nat, n + 1 = 1 ↔ n = 0 := by omega
  rw [hone, List.length_eq_zero, List.append_eq_nil, NoBullets]
  constructor
  · rintro ⟨h1, h2⟩
    refine ⟨nonConvLines_eq_nil_iff.mp h1, ?_⟩
    intro p hp
    have := List.flatten_eq_nil_iff.mp h2 (typeSection url config p.1 p.2)
      (List.mem_map.mpr ⟨p, hp, rfl⟩)
    exact typeSection_eq_nil_iff.mp this
  · rintro ⟨h1, h2⟩
    refine ⟨nonConvLines_eq_nil_iff.mpr h1, ?_⟩
    rw [List.flatten_eq_nil_iff]
    intro x hx
    obtain ⟨p, hp, rfl⟩ := List.mem_map.mp hx
    exact typeSection_eq_nil_iff.mpr (h2 p hp)

theorem generateSection_rendered_ne_empty {url : String} {current : Release}
    {previous : Option Release} {config : Config} :
    replaceIssues url (joinLines (sectionLines url current previous config)) ≠ "" := by
  intro h
  have hdata : (replaceIssuesAux url
      (joinLines (sectionLines url current previous config)).data) = [] := by
    have := congrArg String.data h
    rw [replaceIssues, asString_data] at this
    exact this
  exact replaceIssuesAux_ne_nil
    (joinLines_data_ne_nil sectionHeader_data_ne_nil) hdata

/-- C5: a dateless (unreleased) section renders as the empty string
exactly when zero bullets are emitted (non-conventional commits disabled
or absent, every type group hidden); a dated section is never the empty
string; and the first line of every section is its header. -/
theorem generateSection_suppression (url : String) (current : Release)
    (previous : Option Release) (config : Config) :
    (dateFalsy current = true →
      (GenerateSection url current previous config = "" ↔
        NoBullets current config)) ∧
    (dateFalsy current = false →
      GenerateSection url current previous config ≠ "") ∧
    (sectionLines url current previous config).head? =
      some (sectionHeader url current previous) := by
  refine ⟨?_, ?_, rfl⟩
  · intro hfalsy
    by_cases hlen : (sectionLines url current previous config).length = 1
    · rw [GenerateSection, if_pos ⟨hfalsy, hlen⟩]
      simp only [true_iff]
      exact sectionLines_length_one_iff.mp hlen
    · rw [GenerateSection, if_neg (fun hc => hlen hc.2)]
      constructor
      · intro h
        exact absurd h generateSection_rendered_ne_empty
      · intro h
        exact absurd (sectionLines_length_one_iff.mpr h) hlen
  · intro hdated
    rw [GenerateSection, if_neg (fun hc => by rw [hdated] at hc; exact absurd hc.1 (by simp))]
    exact generateSection_rendered_ne_empty

/-- Concrete configuration for the C5 witness. -/
def exConfig : Config :=
  { types := none, unreleasedHeader := "Unreleased", includeBody := false
    includeNonConventionalCommits := true }

/-- Concrete unreleased release (no metadata, no commits) for the C5
witness. -/
def exUnreleased : Release :=
  { meta := none, commits := [], version := "Unreleased" }

/-- Concrete dated release (opened by the tagged example commit, no
commits) for the C5 witness. -/
def exDatedRelease : Release :=
  { meta := some (Convert exB), commits := [], version := "v1.0.0" }

/-- Witness for C5 at concrete inputs: the empty unreleased section is
suppressed, and the dated release still renders non-emptily with zero
commits. -/
theorem generateSection_suppression_witness :
    (GenerateSection "https://github.com/o/r" exUnreleased none exConfig = "" ↔
      NoBullets exUnreleased exConfig) ∧
    GenerateSection "https://github.com/o/r" exDatedRelease none exConfig ≠ "" :=
  ⟨(generateSection_suppression "https://github.com/o/r" exUnreleased none
      exConfig).1 (by decide),
    (generateSection_suppression "https://github.com/o/r" exDatedRelease none
      exConfig).2.1 (by decide)⟩

/-! ## Task runner (`BaseProvider.executeTasks`, `src/util/run.ts`)

`run` resolves with the trimmed combined stdout+stderr; a non-zero exit,
launch failure or timeout raises a `SCRIPT_ERROR` `BumpError` whose
message carries the captured stdout+stderr.  `executeTasks` iterates the
declared tasks in order; on the first failure it surfaces the captured
output and throws an error naming the failing task, terminating the
phase.  The execution environment is abstracted as a function from the
task to its outcome. -/

/-- A configured task (`schemas/config/Task.ts`): name, shell command,
timeout in milliseconds (default 15000) and spinner suppression. -/
structure Task where
  name : String
  command : String
  timeout : Nat
  noSpinner : Bool
deriving DecidableEq, Repr

/-- The outcome of `run(task.command, { root, timeout })`. -/
inductive RunResult where
  | ok (output : String)
  | err (output : String)
deriving DecidableEq, Repr

/-- Whether the run resolved. -/
def RunResult.isOk : RunResult → Bool
  | RunResult.ok _ => true
  | RunResult.err _ => false

/-- What a phase did: the names of the tasks actually launched, in
order, and -- if the phase failed -- the failing task's name together with
its captured output. -/
structure ExecOutcome where
  executed : List String
  failure : Option (String × String)
deriving DecidableEq, Repr

/-- `BaseProvider.executeTasks`: execute the declared tasks in order,
stopping at the first failure. -/
def executeTasks (exec : Task → RunResult) : List Task → ExecOutcome
  | [] => { executed := [], failure := none }
  | t :: rest =>
    match exec t with
    | RunResult.ok _ =>
      { executed := t.name :: (executeTasks exec rest).executed
        failure := (executeTasks exec rest).failure }
    | RunResult.err out =>
      { executed := [t.name], failure := some (t.name, out) }

/-- C6: the task runner executes tasks strictly in declared order and
stops at the first failing task: every task before the failure is
launched, the failing task is launched, no later task is attempted, and
the surfaced failure carries the failing task's name and captured
output; a phase whose tasks all succeed runs them all and fails
nothing. -/
theorem executeTasks_first_failure (exec : Task → RunResult) :
    (∀ (pre : List Task) (t : Task) (suf : List Task) (out : String),
      (∀ a ∈ pre, (exec a).isOk = true) →
      exec t = RunResult.err out →
      executeTasks exec (pre ++ t :: suf) =
        { executed := pre.map Task.name ++ [t.name]
          failure := some (t.name, out) }) ∧
    (∀ tasks : List Task, (∀ a ∈ tasks, (exec a).isOk = true) →
      executeTasks exec tasks =
        { executed := tasks.map Task.name, failure := none }) := by
  constructor
  · intro pre
    induction pre with
    | nil =>
      intro t suf out _ herr
      rw [List.nil_append, executeTasks, herr]
      simp
    | cons a pre ih =>
      intro t suf out hok herr
      have hA : (exec a).isOk = true := hok a (List.mem_cons_self a pre)
      rw [List.cons_append, executeTasks]
      cases hEA : exec a with
      | err o => rw [hEA] at hA; simp [RunResult.isOk] at hA
      | ok o =>
        rw [ih t suf out (fun x hx => hok x (List.mem_cons.mpr (Or.inr hx))) herr]
        simp
  · intro tasks
    induction tasks with
    | nil => intro _; rfl
    | cons a rest ih =>
      intro hok
      have hA : (exec a).isOk = true := hok a (List.mem_cons_self a rest)
      rw [executeTasks]
      cases hEA : exec a with
      | err o => rw [hEA] at hA; simp [RunResult.isOk] at hA
      | ok o =>
        rw [ih (fun x hx => hok x (List.mem_cons.mpr (Or.inr hx)))]
        simp

/-- Example task `A`, which succeeds. -/
def taskA : Task :=
  { name := "A", command := "ok-a", timeout := 15000, noSpinner := false }

/-- Example task `B`, which fails. -/
def taskB : Task :=
  { name := "B", command := "fail-b", timeout := 15000, noSpinner := false }

/-- Example task `C`, which would succeed but must never run. -/
def taskC : Task :=
  { name := "C", command := "ok-c", timeout := 15000, noSpinner := false }

/-- Example execution environment: task `B` fails with captured output
`"boom"`, every other task succeeds. -/
def exExec : Task → RunResult :=
  fun t => if t.name = "B" then RunResult.err "boom" else RunResult.ok ""

/-- Witness for C6: on `[A(ok), B(fails), C(ok)]` the runner executes `A`
then `B`, never `C`, and the failure names `B` with its output. -/
theorem executeTasks_first_failure_witness :
    executeTasks exExec ([taskA] ++ taskB :: [taskC]) =
      { executed := [taskA].map Task.name ++ [taskB.name]
        failure := some (taskB.name, "boom") } :=
  (executeTasks_first_failure exExec).1 [taskA] taskB [taskC] "boom"
    (by decide) (by decide)

/-! ## Release pipeline (`BaseProvider.bump`, `update`, `substitute`,
`commit`, `generateChangelog`; `src/util/replace.ts`)

`bump` runs: pre-bump tasks (only when declared), then `update` (read the
version through the provider, bump it, write it back), then `substitute`
(pure template substitution), then `commit` (git add, commit, annotated
tag), then -- when the `--changelog` flag is set -- changelog generation
(save, git add, git commit), then post-bump tasks.  Any thrown error
propagates and aborts the remaining phases; nothing is rolled back.  The
effectful collaborators are abstracted into an environment, and the
pipeline is modelled as the list of side-effect events it performs
together with its outcome. -/

/-- Renders a version triple back to its `major.minor.patch` string. -/
def semverToString (v : SemVer) : String :=
  toString v.major ++ "." ++ toString v.minor ++ "." ++ toString v.patch

/-- One global literal replacement (`acc.replace(new RegExp(key, 'g'),
value)` for the handlebar keys, which contain no regex metacharacters
beyond literal braces). -/
def replaceSubAux (pat val : List Char) : List Char → List Char
  | [] => []
  | c :: rest =>
    if h : pat.isPrefixOf (c :: rest) ∧ pat ≠ [] then
      val ++ replaceSubAux pat val ((c :: rest).drop pat.length)
    else c :: replaceSubAux pat val rest
termination_by l => l.length
decreasing_by
  · simp only [List.length_drop, List.length_cons]
    have : 0 < pat.length := List.length_pos.mpr h.2
    omega
  · simp

/-- `string.replace(new RegExp(key, 'g'), value)` for a literal key. -/
def replaceSub (s pat val : String) : String :=
  (replaceSubAux pat.data val.data s.data).asString

/-- `replace` from `src/util/replace.ts`: fold the replacement entries
over the template. -/
def replaceHandlebars (s : String) (replacements : List (String × String)) :
    String :=
  replacements.foldl (fun acc p => replaceSub acc p.1 p.2) s

/-- The strings produced by `BaseProvider.substitute`. -/
structure Substitutions where
  tag : String
  subject : String
  changelog : String
deriving DecidableEq, Repr

/-- The configuration consumed by the pipeline: task lists and the
tag/subject templates. -/
structure PipeConfig where
  tasksPre : List Task
  tasksPost : List Task
  tag : String
  releaseSubject : String
  changelogSubject : String
deriving Repr

/-- `BaseProvider.substitute`: substitute `{{after}}`/`{{before}}` into
the tag template, then `{{after}}`/`{{before}}`/`{{tag}}` into the two
subject templates. -/
def substitute (cfg : PipeConfig) (before after : SemVer) : Substitutions :=
  { tag :=
      replaceHandlebars cfg.tag
        [("{{after}}", semverToString after), ("{{before}}", semverToString before)]
    subject :=
      replaceHandlebars cfg.releaseSubject
        [("{{after}}", semverToString after), ("{{before}}", semverToString before),
          ("{{tag}}",
            replaceHandlebars cfg.tag
              [("{{after}}", semverToString after),
                ("{{before}}", semverToString before)])]
    changelog :=
      replaceHandlebars cfg.changelogSubject
        [("{{after}}", semverToString after), ("{{before}}", semverToString before),
          ("{{tag}}",
            replaceHandlebars cfg.tag
              [("{{after}}", semverToString after),
                ("{{before}}", semverToString before)])] }

/-- `options.body ? subject + blank line + body : subject` (JavaScript
truthiness: an absent or empty body leaves the subject alone). -/
def withBody (subject : String) (body : Option String) : String :=
  match body with
  | some b => if b.isEmpty then subject else subject ++ "\n\n" ++ b
  | none => subject

/-- The flags of the `release` command the pipeline reads. -/
structure ReleaseOptions where
  type : ReleaseKind
  changelog : Bool
  body : Option String
deriving Repr

/-- The pipeline phases, in their fixed order. -/
inductive PipePhase where
  | preHooks
  | versionBump
  | commitTag
  | changelogGen
  | postHooks
deriving DecidableEq, Repr

/-- The side effects the pipeline can perform. -/
inductive Event where
  | taskRun (phase : PipePhase) (name : String)
  | versionRead
  | versionWrite (v : SemVer)
  | gitAdd (phase : PipePhase)
  | gitCommit (phase : PipePhase) (message : String)
  | gitTag (tag : String)
  | changelogSave
deriving DecidableEq, Repr

/-- The position of a phase in the pipeline order. -/
def phaseIdx : PipePhase → Nat
  | PipePhase.preHooks => 0
  | PipePhase.versionBump => 1
  | PipePhase.commitTag => 2
  | PipePhase.changelogGen => 3
  | PipePhase.postHooks => 4

/-- The phase an event belongs to. -/
def eventIdx : Event → Nat
  | Event.taskRun p _ => phaseIdx p
  | Event.versionRead => 1
  | Event.versionWrite _ => 1
  | Event.gitAdd p => phaseIdx p
  | Event.gitCommit p _ => phaseIdx p
  | Event.gitTag _ => 2
  | Event.changelogSave => 3

/-- The ways the pipeline can fail. -/
inductive PipeError where
  | preTaskFailed (name : String)
  | versionReadFailed
  | versionWriteFailed
  | commitFailed
  | changelogFailed
  | postTaskFailed (name : String)
deriving DecidableEq, Repr

/-- The phase a failure belongs to (`4` for a completed run). -/
def errorPhaseIdx : Option PipeError → Nat
  | none => 4
  | some (PipeError.preTaskFailed _) => 0
  | some PipeError.versionReadFailed => 1
  | some PipeError.versionWriteFailed => 1
  | some PipeError.commitFailed => 2
  | some PipeError.changelogFailed => 3
  | some (PipeError.postTaskFailed _) => 4

/-- The effectful collaborators of the pipeline: hook execution, the
provider's version read (`none` models a throwing `version()`) and write,
the git operations and the changelog save. -/
structure PipelineEnv where
  exec : Task → RunResult
  readVersion : Option SemVer
  saveOk : Bool
  gitAddOk : Bool
  gitCommitOk : Bool
  gitTagOk : Bool
  changelogSaveOk : Bool
  changelogAddOk : Bool
  changelogCommitOk : Bool

/-- The events of one hook phase. -/
def hookEvents (env : PipelineEnv) (phase : PipePhase) (tasks : List Task) :
    List Event :=
  (executeTasks env.exec tasks).executed.map (Event.taskRun phase)

/-- The changelog generation step (`generateChangelog`): save the
changelog, stage it, commit it separately. -/
def changelogStep (env : PipelineEnv) (subs : Substitutions)
    (soFar : List Event) : List Event × Option PipeError :=
  if !env.changelogSaveOk then (soFar, some PipeError.changelogFailed)
  else if !env.changelogAddOk then
    (soFar ++ [Event.changelogSave], some PipeError.changelogFailed)
  else if !env.changelogCommitOk then
    (soFar ++ [Event.changelogSave, Event.gitAdd PipePhase.changelogGen],
      some PipeError.changelogFailed)
  else
    (soFar ++ [Event.changelogSave, Event.gitAdd PipePhase.changelogGen,
      Event.gitCommit PipePhase.changelogGen subs.changelog], none)

/-- The post-hook step: run the declared post tasks (a no-op when none
are declared). -/
def postStep (env : PipelineEnv) (cfg : PipeConfig) (soFar : List Event) :
    List Event × Option PipeError :=
  match (executeTasks env.exec cfg.tasksPost).failure with
  | some f =>
    (soFar ++ hookEvents env PipePhase.postHooks cfg.tasksPost,
      some (PipeError.postTaskFailed f.1))
  | none =>
    (soFar ++ hookEvents env PipePhase.postHooks cfg.tasksPost, none)

/-- `BaseProvider.bump`: the full release pipeline. -/
def bumpPipeline (env : PipelineEnv) (cfg : PipeConfig)
    (opts : ReleaseOptions) : List Event × Option PipeError :=
  match (executeTasks env.exec cfg.tasksPre).failure with
  | some f =>
    (hookEvents env PipePhase.preHooks cfg.tasksPre,
      some (PipeError.preTaskFailed f.1))
  | none =>
    match env.readVersion with
    | none =>
      (hookEvents env PipePhase.preHooks cfg.tasksPre ++ [Event.versionRead],
        some PipeError.versionReadFailed)
    | some before =>
      if !env.saveOk then
        (hookEvents env PipePhase.preHooks cfg.tasksPre ++ [Event.versionRead],
          some PipeError.versionWriteFailed)
      else if !env.gitAddOk then
        (hookEvents env PipePhase.preHooks cfg.tasksPre ++
          [Event.versionRead, Event.versionWrite (bump before opts.type)],
          some PipeError.commitFailed)
      else if !env.gitCommitOk then
        (hookEvents env PipePhase.preHooks cfg.tasksPre ++
          [Event.versionRead, Event.versionWrite (bump before opts.type),
            Event.gitAdd PipePhase.commitTag],
          some PipeError.commitFailed)
      else if !env.gitTagOk then
        (hookEvents env PipePhase.preHooks cfg.tasksPre ++
          [Event.versionRead, Event.versionWrite (bump before opts.type),
            Event.gitAdd PipePhase.commitTag,
            Event.gitCommit PipePhase.commitTag
              (withBody (substitute cfg before (bump before opts.type)).subject
                opts.body)],
          some PipeError.commitFailed)
      else if opts.changelog then
        match changelogStep env (substitute cfg before (bump before opts.type))
          (hookEvents env PipePhase.preHooks cfg.tasksPre ++
            [Event.versionRead, Event.versionWrite (bump before opts.type),
              Event.gitAdd PipePhase.commitTag,
              Event.gitCommit PipePhase.commitTag
                (withBody
                  (substitute cfg before (bump before opts.type)).subject
                  opts.body),
              Event.gitTag (substitute cfg before (bump before opts.type)).tag]) with
        | (ev, some e) => (ev, some e)
        | (ev, none) => postStep env cfg ev
      else
        postStep env cfg
          (hookEvents env PipePhase.preHooks cfg.tasksPre ++
            [Event.versionRead, Event.versionWrite (bump before opts.type),
              Event.gitAdd PipePhase.commitTag,
              Event.gitCommit PipePhase.commitTag
                (withBody (substitute cfg before (bump before opts.type)).subject
                  opts.body),
              Event.gitTag (substitute cfg before (bump before opts.type)).tag])

theorem eventIdx_hookEvents {env : PipelineEnv} {phase : PipePhase}
    {tasks : List Task} {e : Event} (h : e ∈ hookEvents env phase tasks) :
    eventIdx e = phaseIdx phase := by
  obtain ⟨n, _, rfl⟩ := List.mem_map.mp h
  rfl

theorem pairwise_of_const_idx {l : List Event} {n : Nat}
    (h : ∀ e ∈ l, eventIdx e = n) :
    l.Pairwise fun a b => eventIdx a ≤ eventIdx b := by
  induction l with
  | nil => exact List.Pairwise.nil
  | cons a t ih =>
    refine List.pairwise_cons.mpr
      ⟨?_, ih fun e he => h e (List.mem_cons.mpr (Or.inr he))⟩
    intro b hb
    rw [h a (List.mem_cons_self a t), h b (List.mem_cons.mpr (Or.inr hb))]

theorem pairwise_idx_append {l1 l2 : List Event}
    (h1 : l1.Pairwise fun a b => eventIdx a ≤ eventIdx b)
    (h2 : l2.Pairwise fun a b => eventIdx a ≤ eventIdx b)
    (hc : ∀ a ∈ l1, ∀ b ∈ l2, eventIdx a ≤ eventIdx b) :
    (l1 ++ l2).Pairwise fun a b => eventIdx a ≤ eventIdx b :=
  List.pairwise_append.mpr ⟨h1, h2, hc⟩

theorem phaseIdx_le_four (p : PipePhase) : phaseIdx p ≤ 4 := by
  cases p <;> decide

theorem eventIdx_le_four (e : Event) : eventIdx e ≤ 4 := by
  cases e with
  | taskRun p n => exact phaseIdx_le_four p
  | gitAdd p => exact phaseIdx_le_four p
  | gitCommit p m => exact phaseIdx_le_four p
  | versionRead => decide
  | versionWrite v => exact Nat.le_of_sub_eq_zero rfl
  | gitTag t => exact Nat.le_of_sub_eq_zero rfl
  | changelogSave => decide

/-- C7: the pipeline performs pre-hooks, version bump, commit-and-tag,
optional changelog and post-hooks in that fixed order (the event trace is
phase-monotone); every event belongs to a phase no later than the failing
one, so a failure aborts all remaining phases; when a pre-bump task fails
the version medium is never read nor written; and a failure in the
commit-and-tag or changelog phase leaves the already-written version (and,
for the changelog phase, the already-created tag) in the trace -- no
rollback. -/
theorem bumpPipeline_phase_order (env : PipelineEnv) (cfg : PipeConfig)
    (opts : ReleaseOptions) :
    ((bumpPipeline env cfg opts).1.Pairwise fun a b => eventIdx a ≤ eventIdx b) ∧
    (∀ e ∈ (bumpPipeline env cfg opts).1,
      eventIdx e ≤ errorPhaseIdx (bumpPipeline env cfg opts).2) ∧
    (∀ n, (bumpPipeline env cfg opts).2 = some (PipeError.preTaskFailed n) →
      Event.versionRead ∉ (bumpPipeline env cfg opts).1 ∧
        ∀ v, Event.versionWrite v ∉ (bumpPipeline env cfg opts).1) ∧
    ((bumpPipeline env cfg opts).2 = some PipeError.commitFailed →
      ∃ v, Event.versionWrite v ∈ (bumpPipeline env cfg opts).1) ∧
    ((bumpPipeline env cfg opts).2 = some PipeError.changelogFailed →
      (∃ v, Event.versionWrite v ∈ (bumpPipeline env cfg opts).1) ∧
        ∃ t, Event.gitTag t ∈ (bumpPipeline env cfg opts).1) := by
  have hPre0 : ∀ e ∈ hookEvents env PipePhase.preHooks cfg.tasksPre,
      eventIdx e = 0 := fun e he => eventIdx_hookEvents he
  have hPost4 : ∀ e ∈ hookEvents env PipePhase.postHooks cfg.tasksPost,
      eventIdx e = 4 := fun e he => eventIdx_hookEvents he
  have hPrePW := pairwise_of_const_idx hPre0
  have hPostPW := pairwise_of_const_idx hPost4
  have hPreCross : ∀ (l2 : List Event),
      ∀ a ∈ hookEvents env PipePhase.preHooks cfg.tasksPre, ∀ b ∈ l2,
        eventIdx a ≤ eventIdx b := by
    intro l2 a ha b _
    rw [hPre0 a ha]
    exact Nat.zero_le _
  have hPostCross : ∀ (l1 : List Event), ∀ a ∈ l1,
      ∀ b ∈ hookEvents env PipePhase.postHooks cfg.tasksPost,
        eventIdx a ≤ eventIdx b := by
    intro l1 a _ b hb
    rw [hPost4 b hb]
    exact eventIdx_le_four a
  unfold bumpPipeline
  cases hpf : (executeTasks env.exec cfg.tasksPre).failure with
  | some f =>
    refine ⟨hPrePW, ?_, ?_, by simp, by simp⟩
    · intro e he
      exact Nat.le_of_eq (hPre0 e he)
    · intro n _
      constructor
      · intro hc
        simp [hookEvents] at hc
      · intro v hc
        simp [hookEvents] at hc
  | none =>
    cases hrv : env.readVersion with
    | none =>
      refine ⟨?_, ?_, by simp, by simp, by simp⟩
      · exact pairwise_idx_append hPrePW (by simp) (hPreCross _)
      · intro e he
        rcases List.mem_append.mp he with he | he
        · rw [hPre0 e he]
          exact Nat.zero_le _
        · rcases List.mem_singleton.mp he with rfl
          exact Nat.le_refl _
    | some before =>
      cases hsave : env.saveOk with
      | false =>
        simp only [Bool.not_false, eq_self_iff_true, if_true]
        refine ⟨?_, ?_, by simp, by simp, by simp⟩
        · exact pairwise_idx_append hPrePW (by simp) (hPreCross _)
        · intro e he
          rcases List.mem_append.mp he with he | he
          · rw [hPre0 e he]
            exact Nat.zero_le _
          · rcases List.mem_singleton.mp he with rfl
            exact Nat.le_refl _
      | true =>
        simp only [Bool.not_true, Bool.false_eq_true, if_false]
        cases hga : env.gitAddOk with
        | false =>
          simp only [Bool.not_false, eq_self_iff_true, if_true]
          refine ⟨?_, ?_, by simp, ?_, by simp⟩
          · refine pairwise_idx_append hPrePW ?_ (hPreCross _)
            simp [List.pairwise_cons, eventIdx]
          · intro e he
            rcases List.mem_append.mp he with he | he
            · rw [hPre0 e he]
              exact Nat.zero_le _
            · rcases List.mem_cons.mp he with rfl | he
              · exact Nat.le_of_sub_eq_zero rfl
              · rcases List.mem_singleton.mp he with rfl
                exact Nat.le_of_sub_eq_zero rfl
          · intro _
            exact ⟨bump before opts.type, by simp⟩
        | true =>
          simp only [Bool.not_true, Bool.false_eq_true, if_false]
          cases hgc : env.gitCommitOk with
          | false =>
            simp only [Bool.not_false, eq_self_iff_true, if_true]
            refine ⟨?_, ?_, by simp, ?_, by simp⟩
            · refine pairwise_idx_append hPrePW ?_ (hPreCross _)
              simp [List.pairwise_cons, eventIdx, phaseIdx]
            · intro e he
              rcases List.mem_append.mp he with he | he
              · rw [hPre0 e he]
                exact Nat.zero_le _
              · rcases List.mem_cons.mp he with rfl | he
                · exact Nat.le_of_sub_eq_zero rfl
                · rcases List.mem_cons.mp he with rfl | he
                  · exact Nat.le_of_sub_eq_zero rfl
                  · rcases List.mem_singleton.mp he with rfl
                    exact Nat.le_refl _
            · intro _
              exact ⟨bump before opts.type, by simp⟩
          | true =>
            simp only [Bool.not_true, Bool.false_eq_true, if_false]
            cases hgt : env.gitTagOk with
            | false =>
              simp only [Bool.not_false, eq_self_iff_true, if_true]
              refine ⟨?_, ?_, by simp, ?_, by simp⟩
              · refine pairwise_idx_append hPrePW ?_ (hPreCross _)
                simp [List.pairwise_cons, eventIdx, phaseIdx]
              · intro e he
                rcases List.mem_append.mp he with he | he
                · rw [hPre0 e he]
                  exact Nat.zero_le _
                · rcases List.mem_cons.mp he with rfl | he
                  · exact Nat.le_of_sub_eq_zero rfl
                  · rcases List.mem_cons.mp he with rfl | he
                    · exact Nat.le_of_sub_eq_zero rfl
                    · rcases List.mem_cons.mp he with rfl | he
                      · exact Nat.le_refl _
                      · rcases List.mem_singleton.mp he with rfl
                        exact Nat.le_refl _
              · intro _
                exact ⟨bump before opts.type, by simp⟩
            | true =>
              simp only [Bool.not_true, Bool.false_eq_true, if_false]
              have hK6idx : ∀ e ∈ ([Event.versionRead,
                  Event.versionWrite (bump before opts.type),
                  Event.gitAdd PipePhase.commitTag,
                  Event.gitCommit PipePhase.commitTag
                    (withBody (substitute cfg before (bump before opts.type)).subject
                      opts.body),
                  Event.gitTag (substitute cfg before (bump before opts.type)).tag] :
                    List Event), eventIdx e ≤ 3 := by
                intro e he
                rcases List.mem_cons.mp he with rfl | he
                · exact Nat.le_of_sub_eq_zero rfl
                · rcases List.mem_cons.mp he with rfl | he
                  · exact Nat.le_of_sub_eq_zero rfl
                  · rcases List.mem_cons.mp he with rfl | he
                    · exact Nat.le_of_sub_eq_zero rfl
                    · rcases List.mem_cons.mp he with rfl | he
                      · exact Nat.le_of_sub_eq_zero rfl
                      · rcases List.mem_singleton.mp he with rfl
                        exact Nat.le_of_sub_eq_zero rfl
              have hBase : ((hookEvents env PipePhase.preHooks cfg.tasksPre ++
                  [Event.versionRead,
                    Event.versionWrite (bump before opts.type),
                    Event.gitAdd PipePhase.commitTag,
                    Event.gitCommit PipePhase.commitTag
                      (withBody
                        (substitute cfg before (bump before opts.type)).subject
                        opts.body),
                    Event.gitTag
                      (substitute cfg before (bump before opts.type)).tag]) :
                  List Event).Pairwise fun a b => eventIdx a ≤ eventIdx b := by
                refine pairwise_idx_append hPrePW ?_ (hPreCross _)
                simp [List.pairwise_cons, eventIdx, phaseIdx]
              cases hcl : opts.changelog with
              | false =>
                simp only [Bool.false_eq_true, if_false]
                unfold postStep
                cases hpo : (executeTasks env.exec cfg.tasksPost).failure with
                | some g =>
                  refine ⟨?_, ?_, by simp, by simp, by simp⟩
                  · exact pairwise_idx_append hBase hPostPW (hPostCross _)
                  · intro e _
                    exact eventIdx_le_four e
                | none =>
                  refine ⟨?_, ?_, by simp, by simp, by simp⟩
                  · exact pairwise_idx_append hBase hPostPW (hPostCross _)
                  · intro e _
                    exact eventIdx_le_four e
              | true =>
                simp only [eq_self_iff_true, if_true]
                unfold changelogStep
                cases hcs : env.changelogSaveOk with
                | false =>
                  simp only [Bool.not_false, eq_self_iff_true, if_true]
                  refine ⟨hBase, ?_, by simp, by simp, ?_⟩
                  · intro e he
                    rcases List.mem_append.mp he with he | he
                    · rw [hPre0 e he]
                      exact Nat.zero_le _
                    · exact hK6idx e he
                  · intro _
                    exact ⟨⟨bump before opts.type, by simp⟩,
                      ⟨(substitute cfg before (bump before opts.type)).tag, by simp⟩⟩
                | true =>
                  simp only [Bool.not_true, Bool.false_eq_true, if_false]
                  cases hca : env.changelogAddOk with
                  | false =>
                    simp only [Bool.not_false, eq_self_iff_true, if_true]
                    refine ⟨?_, ?_, by simp, by simp, ?_⟩
                    · refine pairwise_idx_append hBase (by simp) ?_
                      intro a ha b hb
                      rcases List.mem_singleton.mp hb with rfl
                      rcases List.mem_append.mp ha with ha | ha
                      · rw [hPre0 a ha]
                        exact Nat.zero_le _
                      · exact Nat.le_trans (hK6idx a ha) (Nat.le_refl 3)
                    · intro e he
                      rcases List.mem_append.mp he with he | he
                      · rcases List.mem_append.mp he with he | he
                        · rw [hPre0 e he]
                          exact Nat.zero_le _
                        · exact hK6idx e he
                      · rcases List.mem_singleton.mp he with rfl
                        exact Nat.le_refl _
                    · intro _
                      refine ⟨⟨bump before opts.type, ?_⟩,
                        ⟨(substitute cfg before (bump before opts.type)).tag, ?_⟩⟩ <;>
                        simp
                  | true =>
                    simp only [Bool.not_true, Bool.false_eq_true, if_false]
                    cases hcc : env.changelogCommitOk with
                    | false =>
                      simp only [Bool.not_false, eq_self_iff_true, if_true]
                      refine ⟨?_, ?_, by simp, by simp, ?_⟩
                      · refine pairwise_idx_append hBase ?_ ?_
                        · simp [List.pairwise_cons, eventIdx, phaseIdx]
                        · intro a ha b hb
                          have hb3 : eventIdx b = 3 := by
                            rcases List.mem_cons.mp hb with rfl | hb
                            · rfl
                            · rcases List.mem_singleton.mp hb with rfl
                              rfl
                          rw [hb3]
                          rcases List.mem_append.mp ha with ha | ha
                          · rw [hPre0 a ha]
                            exact Nat.zero_le _
                          · exact hK6idx a ha
                      · intro e he
                        rcases List.mem_append.mp he with he | he
                        · rcases List.mem_append.mp he with he | he
                          · rw [hPre0 e he]
                            exact Nat.zero_le _
                          · exact hK6idx e he
                        · rcases List.mem_cons.mp he with rfl | he
                          · exact Nat.le_refl _
                          · rcases List.mem_singleton.mp he with rfl
                            exact Nat.le_refl _
                      · intro _
                        refine ⟨⟨bump before opts.type, ?_⟩,
                          ⟨(substitute cfg before (bump before opts.type)).tag, ?_⟩⟩ <;>
                          simp
                    | true =>
                      simp only [Bool.not_true, Bool.false_eq_true, if_false]
                      unfold postStep
                      have hMid : ((hookEvents env PipePhase.preHooks cfg.tasksPre ++
                          [Event.versionRead,
                            Event.versionWrite (bump before opts.type),
                            Event.gitAdd PipePhase.commitTag,
                            Event.gitCommit PipePhase.commitTag
                              (withBody
                                (substitute cfg before (bump before opts.type)).subject
                                opts.body),
                            Event.gitTag
                              (substitute cfg before (bump before opts.type)).tag] ++
                          [Event.changelogSave,
                            Event.gitAdd PipePhase.changelogGen,
                            Event.gitCommit PipePhase.changelogGen
                              (substitute cfg before (bump before opts.type)).changelog]) :
                          List Event).Pairwise fun a b => eventIdx a ≤ eventIdx b := by
                        refine pairwise_idx_append hBase ?_ ?_
                        · simp [List.pairwise_cons, eventIdx, phaseIdx]
                        · intro a ha b hb
                          have hb3 : eventIdx b = 3 := by
                            rcases List.mem_cons.mp hb with rfl | hb
                            · rfl
                            · rcases List.mem_cons.mp hb with rfl | hb
                              · rfl
                              · rcases List.mem_singleton.mp hb with rfl
                                rfl
                          rw [hb3]
                          rcases List.mem_append.mp ha with ha | ha
                          · rw [hPre0 a ha]
                            exact Nat.zero_le _
                          · exact hK6idx a ha
                      cases hpo : (executeTasks env.exec cfg.tasksPost).failure with
                      | some g =>
                        refine ⟨?_, ?_, by simp, by simp, by simp⟩
                        · exact pairwise_idx_append hMid hPostPW (hPostCross _)
                        · intro e _
                          exact eventIdx_le_four e
                      | none =>
                        refine ⟨?_, ?_, by simp, by simp, by simp⟩
                        · exact pairwise_idx_append hMid hPostPW (hPostCross _)
                        · intro e _
                          exact eventIdx_le_four e

/-- Concrete pipeline environment for the C7 witness: the hook executor
fails task `B`, every other collaborator succeeds. -/
def exEnvPreFail : PipelineEnv :=
  { exec := exExec, readVersion := some ⟨1, 2, 3⟩, saveOk := true
    gitAddOk := true, gitCommitOk := true, gitTagOk := true
    changelogSaveOk := true, changelogAddOk := true
    changelogCommitOk := true }

/-- Concrete pipeline configuration for the C7 witness: one failing
pre-bump task. -/
def exPipeConfig : PipeConfig :=
  { tasksPre := [taskB], tasksPost := [], tag := "v{{after}}"
    releaseSubject := "chore: release {{tag}}"
    changelogSubject := "docs: changelog {{tag}}" }

/-- Concrete release options for the C7 witness. -/
def exReleaseOptions : ReleaseOptions :=
  { type := ReleaseKind.patch, changelog := true, body := none }

/-- Witness for C7: with a failing pre-bump task, the version medium is
never read nor written. -/
theorem bumpPipeline_phase_order_witness :
    Event.versionRead ∉ (bumpPipeline exEnvPreFail exPipeConfig exReleaseOptions).1 ∧
    ∀ v, Event.versionWrite v ∉
      (bumpPipeline exEnvPreFail exPipeConfig exReleaseOptions).1 :=
  (bumpPipeline_phase_order exEnvPreFail exPipeConfig exReleaseOptions).2.2.1
    "B" (by decide)

/-! ## Repository URL resolution (`Changelog.GitURL`,
`src/util/regex.ts` `git.SSH_URL`)

`GitURL` takes the output of `git remote get-url origin` (modelled as the
input string): a falsy output raises `NOT_A_GIT_REPOSITORY`; a string that
passes the `Link` schema (zod `z.string().url()`) is returned unchanged;
otherwise the SSH regex

`^(?<git>git)@(?<host>.*\.com):(?<owner>.*)\/(?<repo>.*).git`

is matched with a non-null assertion (`match(...)!`): when it fails, the
property accesses on `null` raise a `TypeError` at runtime, modelled as a
distinguished error.  Note the regex requires the host to end in `.com`,
has an unescaped `.` before `git` and no end anchor. -/

/-- A URL scheme character: ASCII alphanumeric, `+`, `-` or `.`. -/
def isSchemeChar (c : Char) : Bool :=
  c.isAlphanum || c = '+' || c = '-' || c = '.'

/-- The `://` separator followed by a nonempty remainder. -/
def schemeSep : List Char → Bool
  | c1 :: c2 :: c3 :: r => ((c1 == ':') && (c2 == '/') && (c3 == '/')) && !r.isEmpty
  | _ => false

/-- A nonempty scheme: an alphabetic head and scheme characters. -/
def schemeHead : List Char → Bool
  | [] => false
  | p0 :: prest => p0.isAlpha && (p0 :: prest).all isSchemeChar

/-- Models `schemas.Link.safeParse(url).success` (zod `z.string().url()`,
which accepts exactly the strings the WHATWG URL parser accepts).  We
model validity as: a syntactically valid scheme, then `://`, then a
nonempty remainder.  The model is exact on the inputs at issue: `https://`
URLs are accepted, and SSH remotes `git@host:...` are rejected because
their scheme position contains `@`. -/
def isValidUrl (s : String) : Bool :=
  schemeHead (s.data.takeWhile (fun c => !(c == ':'))) &&
    schemeSep (s.data.dropWhile (fun c => !(c == ':')))

/-- All ways to read `(?<g>.*)d` off a string for a delimiter character
`d`: each split at an occurrence of `d` whose left part contains no line
terminator, longest left part (the greedy preference) first. -/
def delimSplits (d : Char) : List Char → List (List Char × List Char)
  | [] => []
  | c :: rest =>
    if c = d then
      ((delimSplits d rest).map fun p => (c :: p.1, p.2)) ++ [([], rest)]
    else if isLineTerm c then []
    else (delimSplits d rest).map fun p => (c :: p.1, p.2)

/-- `(?<repo>.*).git` with no end anchor: the longest prefix of
non-terminator characters followed by one non-terminator character (the
unescaped `.`) and the literal `git`; anything may follow. -/
def gitAt : List Char → Bool
  | c1 :: c2 :: c3 :: _ => (c1 == 'g') && (c2 == 'i') && (c3 == 't')
  | _ => false

/-- The repo capture itself: longest-first backtracking of `(?<repo>.*)`
before `.git`. -/
def repoSplit : List Char → Option (List Char)
  | [] => none
  | c :: rest =>
    if isLineTerm c then none
    else
      match repoSplit rest with
      | some p => some (c :: p)
      | none => if gitAt rest then some [] else none

/-- The part of the SSH match after the literal `git@`. -/
def matchSSHBody (r : List Char) : Option (String × String × String) :=
  (delimSplits ':' r).findSome? fun hp =>
    if ('.' :: 'c' :: 'o' :: 'm' :: []).isSuffixOf hp.1 then
      (delimSplits '/' hp.2).findSome? fun op =>
        (repoSplit op.2).map fun rp =>
          (hp.1.asString, op.1.asString, rp.asString)
    else none

/-- The match of `git.SSH_URL` against the remote output: the captured
`host`, `owner` and `repo` groups, or `none`. -/
def matchSSH (cs : List Char) : Option (String × String × String) :=
  match cs with
  | c1 :: c2 :: c3 :: c4 :: r =>
    if c1 = 'g' ∧ c2 = 'i' ∧ c3 = 't' ∧ c4 = '@' then matchSSHBody r else none
  | _ => none

/-- The ways `GitURL` can fail. -/
inductive GitURLError where
  | notAGitRepository
  | nullGroupAccess
deriving DecidableEq, Repr

instance {e a : Type} [DecidableEq e] [DecidableEq a] :
    DecidableEq (Except e a) := fun x y =>
  match x, y with
  | Except.ok x1, Except.ok y1 =>
    if h : x1 = y1 then isTrue (by rw [h])
    else isFalse (by intro hc; injection hc; contradiction)
  | Except.error x1, Except.error y1 =>
    if h : x1 = y1 then isTrue (by rw [h])
    else isFalse (by intro hc; injection hc; contradiction)
  | Except.ok _, Except.error _ => isFalse (by intro hc; cases hc)
  | Except.error _, Except.ok _ => isFalse (by intro hc; cases hc)

/-- `Changelog.GitURL`, as a function of the remote output. -/
def GitURL (url : String) : Except GitURLError String :=
  if url.data.isEmpty then Except.error GitURLError.notAGitRepository
  else if isValidUrl url then Except.ok url
  else
    match matchSSH url.data with
    | some (h, o, r) =>
      Except.ok ("https://" ++ h ++ "/" ++ o ++ "/" ++ r)
    | none => Except.error GitURLError.nullGroupAccess

theorem delimSplits_eq_nil {d : Char} {l : List Char}
    (h : ∀ c ∈ l, c ≠ d) : delimSplits d l = [] := by
  induction l with
  | nil => rfl
  | cons c rest ih =>
    rw [delimSplits, if_neg (h c (List.mem_cons_self c rest))]
    split
    · rfl
    · rw [ih fun x hx => h x (List.mem_cons.mpr (Or.inr hx))]
      rfl

theorem delimSplits_single {d : Char} {a b : List Char}
    (ha : ∀ c ∈ a, c ≠ d ∧ isLineTerm c = false) (hb : ∀ c ∈ b, c ≠ d) :
    delimSplits d (a ++ d :: b) = [(a, b)] := by
  induction a with
  | nil =>
    rw [List.nil_append, delimSplits, if_pos rfl, delimSplits_eq_nil hb]
    rfl
  | cons c a ih =>
    have hc := ha c (List.mem_cons_self c a)
    have hterm : ¬ isLineTerm c = true := by simp [hc.2]
    rw [List.cons_append, delimSplits, if_neg hc.1, if_neg hterm,
      ih fun x hx => ha x (List.mem_cons.mpr (Or.inr hx))]
    rfl

theorem repoSplit_append {repo : List Char}
    (h : ∀ c ∈ repo, isLineTerm c = false) :
    repoSplit (repo ++ ('.' :: 'g' :: 'i' :: 't' :: [])) = some repo := by
  induction repo with
  | nil => decide
  | cons c rs ih =>
    have hc : ¬ isLineTerm c = true := by simp [h c (List.mem_cons_self c rs)]
    rw [List.cons_append, repoSplit, if_neg hc,
      ih fun x hx => h x (List.mem_cons.mpr (Or.inr hx))]

theorem isValidUrl_https {rest : String} (h : rest.data ≠ []) :
    isValidUrl ("https://" ++ rest) = true := by
  have hd : ("https://" ++ rest).data =
      'h' :: 't' :: 't' :: 'p' :: 's' :: ':' :: '/' :: '/' :: rest.data := rfl
  unfold isValidUrl
  rw [hd]
  have ht : ('h' :: 't' :: 't' :: 'p' :: 's' :: ':' :: '/' :: '/' ::
      rest.data).takeWhile (fun c => !(c == ':')) =
      ['h', 't', 't', 'p', 's'] := by
    simp [List.takeWhile_cons]
  have hw : ('h' :: 't' :: 't' :: 'p' :: 's' :: ':' :: '/' :: '/' ::
      rest.data).dropWhile (fun c => !(c == ':')) =
      ':' :: '/' :: '/' :: rest.data := by
    simp [List.dropWhile_cons]
  rw [ht, hw]
  have h1 : schemeHead ['h', 't', 't', 'p', 's'] = true := by decide
  have h2 : schemeSep (':' :: '/' :: '/' :: rest.data) = !rest.data.isEmpty := by
    rw [schemeSep]
    simp
  rw [h1, h2]
  simp [h]

theorem isValidUrl_git_ssh {s : String} {tail : List Char}
    (hd : s.data = 'g' :: 'i' :: 't' :: '@' :: tail) : isValidUrl s = false := by
  unfold isValidUrl
  rw [hd]
  have ht : ('g' :: 'i' :: 't' :: '@' :: tail).takeWhile (fun c => !(c == ':')) =
      'g' :: 'i' :: 't' :: '@' :: tail.takeWhile (fun c => !(c == ':')) := by
    simp [List.takeWhile_cons]
  rw [ht, schemeHead]
  have hat : isSchemeChar '@' = false := by decide
  simp [List.all_cons, hat]

/-- C8 (amended): a remote already in valid HTTPS URL form is returned
unchanged, and an SSH remote `git@host:owner/repo.git` is converted to
`https://host/owner/repo` PROVIDED the host ends in `.com` (the regex
demands it); the host may contain no colon, the owner no colon or slash,
the repo no colon or slash.  An SSH remote whose host does not end in
`.com` makes the non-null assertion on the match fail instead. -/
theorem gitURL_resolution :
    (∀ rest : String, rest.data ≠ [] →
      GitURL ("https://" ++ rest) = Except.ok ("https://" ++ rest)) ∧
    (∀ host owner repo : String, ∀ hostPre : List Char,
      host.data = hostPre ++ ('.' :: 'c' :: 'o' :: 'm' :: []) →
      (∀ c ∈ host.data, c ≠ ':' ∧ isLineTerm c = false) →
      (∀ c ∈ owner.data, c ≠ ':' ∧ c ≠ '/' ∧ isLineTerm c = false) →
      (∀ c ∈ repo.data, c ≠ ':' ∧ c ≠ '/' ∧ isLineTerm c = false) →
      GitURL ("git@" ++ host ++ ":" ++ owner ++ "/" ++ repo ++ ".git") =
        Except.ok ("https://" ++ host ++ "/" ++ owner ++ "/" ++ repo)) := by
  constructor
  · intro rest h
    have hd : ("https://" ++ rest).data =
        'h' :: 't' :: 't' :: 'p' :: 's' :: ':' :: '/' :: '/' :: rest.data := rfl
    have h1 : ("https://" ++ rest).data.isEmpty = false := by
      rw [hd]
      rfl
    rw [GitURL, h1, if_neg (by simp), if_pos (isValidUrl_https h)]
  · intro host owner repo hostPre hHost hHostC hOwnerC hRepoC
    have hd : ("git@" ++ host ++ ":" ++ owner ++ "/" ++ repo ++ ".git").data =
        'g' :: 'i' :: 't' :: '@' ::
          (host.data ++ ':' ::
            (owner.data ++ '/' ::
              (repo.data ++ ('.' :: 'g' :: 'i' :: 't' :: [])))) := by
      show ((((("git@" ++ host) ++ ":") ++ owner) ++ "/") ++ repo).data ++
          ".git".data = _
      simp [string_data_append, List.append_assoc]
    have h1 : ("git@" ++ host ++ ":" ++ owner ++ "/" ++ repo ++ ".git").data.isEmpty
        = false := by
      rw [hd]
      rfl
    have hGitNoColon : ∀ c ∈ ('.' :: 'g' :: 'i' :: 't' :: [] : List Char),
        c ≠ ':' := by decide
    have hRest2 : ∀ c ∈ owner.data ++ '/' ::
        (repo.data ++ ('.' :: 'g' :: 'i' :: 't' :: [])), c ≠ ':' := by
      intro c hc
      rcases List.mem_append.mp hc with hc | hc
      · exact (hOwnerC c hc).1
      · rcases List.mem_cons.mp hc with rfl | hc
        · decide
        · rcases List.mem_append.mp hc with hc | hc
          · exact (hRepoC c hc).1
          · exact hGitNoColon c hc
    have hSplit1 : delimSplits ':'
        (host.data ++ ':' ::
          (owner.data ++ '/' :: (repo.data ++ ('.' :: 'g' :: 'i' :: 't' :: [])))) =
        [(host.data,
          owner.data ++ '/' :: (repo.data ++ ('.' :: 'g' :: 'i' :: 't' :: [])))] :=
      delimSplits_single hHostC hRest2
    have hNoSlash : ∀ c ∈ repo.data ++ ('.' :: 'g' :: 'i' :: 't' :: []),
        c ≠ '/' := by
      intro c hc
      rcases List.mem_append.mp hc with hc | hc
      · exact (hRepoC c hc).2.1
      · exact (by decide :
          ∀ x ∈ ('.' :: 'g' :: 'i' :: 't' :: [] : List Char), x ≠ '/') c hc
    have hSplit2 : delimSplits '/'
        (owner.data ++ '/' :: (repo.data ++ ('.' :: 'g' :: 'i' :: 't' :: []))) =
        [(owner.data, repo.data ++ ('.' :: 'g' :: 'i' :: 't' :: []))] :=
      delimSplits_single (fun c hc => ⟨(hOwnerC c hc).2.1, (hOwnerC c hc).2.2⟩)
        hNoSlash
    have hRepo : repoSplit (repo.data ++ ('.' :: 'g' :: 'i' :: 't' :: [])) =
        some repo.data := repoSplit_append fun c hc => (hRepoC c hc).2.2
    have hSuf : ('.' :: 'c' :: 'o' :: 'm' :: []).isSuffixOf host.data = true :=
      List.isSuffixOf_iff_suffix.mpr ⟨hostPre, hHost.symm⟩
    rw [GitURL, h1, if_neg (by simp), if_neg (by rw [isValidUrl_git_ssh hd]; simp),
      hd]
    rw [matchSSH, if_pos ⟨rfl, rfl, rfl, rfl⟩, matchSSHBody, hSplit1,
      List.findSome?_cons]
    rw [if_pos hSuf, hSplit2, List.findSome?_cons, hRepo]
    rfl

/-- C8 counterexample: the SSH remote `git@gitlab.org:owner/repo.git` is
exactly of the claimed form, but its host does not end in `.com`, so the
SSH regex fails and the non-null assertion crashes (`TypeError`) instead
of resolving to `https://gitlab.org/owner/repo`. -/
theorem gitURL_nonCom_counterexample :
    GitURL "git@gitlab.org:owner/repo.git" =
      Except.error GitURLError.nullGroupAccess ∧
    GitURL "git@gitlab.org:owner/repo.git" ≠
      Except.ok "https://gitlab.org/owner/repo" := by
  refine ⟨by decide, by decide⟩

/-- Witness for C8 at concrete inputs: a `.com` SSH remote converts, a
plain HTTPS remote is returned unchanged. -/
theorem gitURL_resolution_witness :
    GitURL ("https://" ++ "github.com/norviah/bump") =
      Except.ok ("https://" ++ "github.com/norviah/bump") ∧
    GitURL ("git@" ++ "github.com" ++ ":" ++ "norviah" ++ "/" ++ "bump" ++ ".git") =
      Except.ok ("https://" ++ "github.com" ++ "/" ++ "norviah" ++ "/" ++ "bump") :=
  ⟨gitURL_resolution.1 "github.com/norviah/bump" (by decide),
    gitURL_resolution.2 "github.com" "norviah" "bump" "github".data
      (by decide) (by decide) (by decide) (by decide)⟩

/-! ## Changelog saving (`Changelog.Save`)

`Save` validates the output path eagerly -- an existing non-file output
raises `INVALID_OUTPUT_PATH`, a missing parent directory raises
`MISSING_DIRECTORY` -- and only then generates the changelog and writes
it.  The filesystem is abstracted as a map from paths to what they hold,
and `dirname` is Node's `path.posix.dirname`. -/

/-- What a filesystem path holds. -/
inductive FsKind where
  | file
  | dir
  | absent
deriving DecidableEq, Repr

/-- Node's `path.posix.dirname`: scanning from the end (never index 0),
skip trailing slashes, then the trailing non-slash run; cut before the
slash found there.  With no such slash the result is `/` for rooted paths
and `.` otherwise; `//` is kept for a cut at index 1 of a rooted path. -/
def dirname (p : String) : String :=
  match p.data with
  | [] => "."
  | c0 :: rest =>
    if ((rest.reverse.dropWhile fun c => c == '/').dropWhile
        fun c => !(c == '/')).isEmpty then
      if c0 = '/' then "/" else "."
    else if c0 = '/' ∧
        ((rest.reverse.dropWhile fun c => c == '/').dropWhile
          fun c => !(c == '/')).length = 1 then "//"
    else
      ((c0 :: rest).take
        ((rest.reverse.dropWhile fun c => c == '/').dropWhile
          fun c => !(c == '/')).length).asString

/-- The steps `Save` can perform after validation. -/
inductive SaveEvent where
  | generate
  | write (path : String)
deriving DecidableEq, Repr

/-- The errors `Save` raises during validation. -/
inductive SaveError where
  | invalidOutputPath
  | missingDirectory (dir : String)
deriving DecidableEq, Repr

/-- `Changelog.Save` over an abstract filesystem: check that an existing
output is a file, check that the parent directory exists, then generate
and write.  Returns the performed steps, the outcome and the resulting
filesystem. -/
def ChangelogSave (fs : String → FsKind) (output : String) :
    List SaveEvent × Except SaveError Unit × (String → FsKind) :=
  if fs output ≠ FsKind.absent ∧ fs output ≠ FsKind.file then
    ([], Except.error SaveError.invalidOutputPath, fs)
  else if fs (dirname output) = FsKind.absent then
    ([], Except.error (SaveError.missingDirectory (dirname output)), fs)
  else
    ([SaveEvent.generate, SaveEvent.write output], Except.ok (),
      fun p => if p = output then FsKind.file else fs p)

/-- A well-formed filesystem: everything that exists has an existing
directory as its parent. -/
def FsWellFormed (fs : String → FsKind) : Prop :=
  ∀ p, fs p ≠ FsKind.absent → fs (dirname p) = FsKind.dir

/-- C9: on a well-formed filesystem, saving fails with
`INVALID_OUTPUT_PATH` exactly when the output path exists and is not a
file, fails with `MISSING_DIRECTORY` exactly when the output's parent
directory does not exist, and on either error nothing has been generated
or written and the filesystem is unchanged. -/
theorem changelogSave_errors (fs : String → FsKind) (output : String)
    (hwf : FsWellFormed fs) :
    ((ChangelogSave fs output).2.1 = Except.error SaveError.invalidOutputPath ↔
      (fs output ≠ FsKind.absent ∧ fs output ≠ FsKind.file)) ∧
    ((ChangelogSave fs output).2.1 =
        Except.error (SaveError.missingDirectory (dirname output)) ↔
      fs (dirname output) = FsKind.absent) ∧
    (∀ err, (ChangelogSave fs output).2.1 = Except.error err →
      (ChangelogSave fs output).1 = [] ∧
      (ChangelogSave fs output).2.2 = fs) := by
  by_cases h1 : fs output ≠ FsKind.absent ∧ fs output ≠ FsKind.file
  · have hpar : fs (dirname output) = FsKind.dir := hwf output h1.1
    rw [ChangelogSave, if_pos h1]
    refine ⟨by simp [h1], ?_, ?_⟩
    · constructor
      · intro hc
        simp at hc
      · intro hc
        rw [hc] at hpar
        cases hpar
    · intro err _
      exact ⟨rfl, rfl⟩
  · rw [ChangelogSave, if_neg h1]
    by_cases h2 : fs (dirname output) = FsKind.absent
    · rw [if_pos h2]
      refine ⟨by simp [h1], by simp [h2], ?_⟩
      intro err _
      exact ⟨rfl, rfl⟩
    · rw [if_neg h2]
      refine ⟨?_, ?_, ?_⟩
      · constructor
        · intro hc
          cases hc
        · intro hc
          exact absurd hc h1
      · constructor
        · intro hc
          cases hc
        · intro hc
          exact absurd hc h2
      · intro err hc
        cases hc

/-- Concrete filesystem for the C9 witness: a root, a project directory
and an existing changelog file. -/
def exFs : String → FsKind := fun p =>
  if p = "/" then FsKind.dir
  else if p = "/a" then FsKind.dir
  else if p = "/a/old.md" then FsKind.file
  else FsKind.absent

/-- Witness for C9 at a concrete well-formed filesystem and output
path. -/
theorem changelogSave_errors_witness :
    (((ChangelogSave exFs "/a/CHANGELOG.md").2.1 =
        Except.error SaveError.invalidOutputPath ↔
      (exFs "/a/CHANGELOG.md" ≠ FsKind.absent ∧
        exFs "/a/CHANGELOG.md" ≠ FsKind.file)) ∧
    ((ChangelogSave exFs "/a/CHANGELOG.md").2.1 =
        Except.error (SaveError.missingDirectory (dirname "/a/CHANGELOG.md")) ↔
      exFs (dirname "/a/CHANGELOG.md") = FsKind.absent) ∧
    (∀ err, (ChangelogSave exFs "/a/CHANGELOG.md").2.1 = Except.error err →
      (ChangelogSave exFs "/a/CHANGELOG.md").1 = [] ∧
      (ChangelogSave exFs "/a/CHANGELOG.md").2.2 = exFs)) :=
  changelogSave_errors exFs "/a/CHANGELOG.md" (by
    intro p hp
    unfold exFs at hp ⊢
    split at hp
    · rename_i h
      subst h
      decide
    · split at hp
      · rename_i h
        subst h
        decide
      · split at hp
        · rename_i h
          subst h
          decide
        · exact absurd rfl hp)

/-! ## JSON version provider (`JsonProvider.save`)

`save` reads the JSON object from the version file, assigns the new
version to the configured key and writes the object back.  We model the
file round trip at the object level: the stored object is the updated
association list.  The assignment is JavaScript object assignment,
already modelled by `setKey`. -/

/-- A JSON value. -/
inductive JsonValue where
  | str (s : String)
  | num (n : Int)
  | bool (b : Bool)
  | null
  | arr (items : List JsonValue)
  | obj (fields : List (String × JsonValue))

/-- `JsonProvider.save`: assign the version string to the configured key
of the stored JSON object. -/
def JsonProviderSave (json : List (String × JsonValue)) (key version : String) :
    List (String × JsonValue) :=
  setKey json key (JsonValue.str version)

theorem getKey_setKey_self {α : Type} (l : List (String × α)) (k : String)
    (v : α) : getKey (setKey l k v) k = some v := by
  induction l with
  | nil =>
    rw [setKey, getKey, if_pos rfl]
  | cons p rest ih =>
    rw [setKey]
    split
    · rename_i hk
      rw [getKey, if_pos hk]
    · rename_i hk
      rw [getKey, if_neg hk]
      exact ih

theorem getKey_setKey_ne {α : Type} (l : List (String × α)) {k k2 : String}
    (v : α) (h : k2 ≠ k) : getKey (setKey l k v) k2 = getKey l k2 := by
  induction l with
  | nil =>
    show (if k = k2 then some v else none) = none
    rw [if_neg fun hc => h hc.symm]
  | cons p rest ih =>
    obtain ⟨k0, v0⟩ := p
    show getKey (if k0 = k then (k0, v) :: rest else (k0, v0) :: setKey rest k v)
        k2 = getKey ((k0, v0) :: rest) k2
    by_cases hk : k0 = k
    · rw [if_pos hk]
      show (if k0 = k2 then some v else getKey rest k2) =
        (if k0 = k2 then some v0 else getKey rest k2)
      by_cases hk2 : k0 = k2
      · exact absurd (hk2.symm.trans hk) h
      · rw [if_neg hk2, if_neg hk2]
    · rw [if_neg hk]
      show (if k0 = k2 then some v0 else getKey (setKey rest k v) k2) =
        (if k0 = k2 then some v0 else getKey rest k2)
      by_cases hk2 : k0 = k2
      · rw [if_pos hk2, if_pos hk2]
      · rw [if_neg hk2, if_neg hk2, ih]

/-- C10: writing a new version through the JSON provider updates only the
configured key: afterwards the stored object maps that key to the new
version and every other key to the value it had before. -/
theorem jsonProviderSave_frame (json : List (String × JsonValue))
    (key version : String) :
    getKey (JsonProviderSave json key version) key =
      some (JsonValue.str version) ∧
    ∀ k, k ≠ key →
      getKey (JsonProviderSave json key version) k = getKey json k := by
  refine ⟨getKey_setKey_self json key (JsonValue.str version), ?_⟩
  intro k hk
  exact getKey_setKey_ne json (JsonValue.str version) hk

/-- Witness for C10 on a concrete two-key `package.json` object. -/
theorem jsonProviderSave_frame_witness :
    getKey (JsonProviderSave
        [("name", JsonValue.str "bump"), ("version", JsonValue.str "1.0.0")]
        "version" "1.0.1") "version" = some (JsonValue.str "1.0.1") ∧
    getKey (JsonProviderSave
        [("name", JsonValue.str "bump"), ("version", JsonValue.str "1.0.0")]
        "version" "1.0.1") "name" =
      getKey [("name", JsonValue.str "bump"), ("version", JsonValue.str "1.0.0")]
        "name" :=
  ⟨(jsonProviderSave_frame
      [("name", JsonValue.str "bump"), ("version", JsonValue.str "1.0.0")]
      "version" "1.0.1").1,
    (jsonProviderSave_frame
      [("name", JsonValue.str "bump"), ("version", JsonValue.str "1.0.0")]
      "version" "1.0.1").2 "name" (by decide)⟩

/-- C2 (amended): classification decides the grammar
`^<type>(\\(<scope>\\))?\\s?<breaking:!>?\\s?:\\s?<description>$` -- with at
most ONE whitespace character in each `\\s?` slot (one optionally between
scope and `!`, one before the colon, one after it), not `\\s*`: every
subject matching that grammar is classified into the structured record
(whose captures themselves conform to the grammar), every subject matching
it in no way is returned raw as a non-error outcome, and the two examples
from the spec hold. -/
theorem classify_grammar_sound :
    (∀ s : String,
      (∃ g, matchConventional s = some g ∧ MatchesCommitGrammar s g ∧
        classify s = MessageVal.conv
          { type := g.type, scope := g.scope, breaking := g.breaking.isSome
            description := g.description }) ∨
      ((∀ g, ¬ MatchesCommitGrammar s g) ∧ classify s = MessageVal.raw s)) ∧
    classify "feat(core)!: drop legacy api" = MessageVal.conv
      { type := "feat", scope := some "core", breaking := true
        description := "drop legacy api" } ∧
    classify "updated readme" = MessageVal.raw "updated readme" := by
  refine ⟨?_, by decide, by decide⟩
  intro s
  cases hm : matchConventional s with
  | some g =>
    exact Or.inl ⟨g, rfl, matchConventional_sound hm, by rw [classify, hm]⟩
  | none =>
    refine Or.inr ⟨?_, by rw [classify, hm]⟩
    intro g hg
    obtain ⟨g2, hg2⟩ := matchConventional_complete hg
    rw [hm] at hg2
    exact Option.noConfusion hg2

/-- C2 counterexample: the subject `"feat   : x"` (three spaces before the
colon) matches the grammar as the claim states it (`\\s*`, any amount of
whitespace around the colon), yet the source classifier fails to match it
and returns the raw string unchanged: the implemented regex allows at most
one whitespace character per `\\s?` slot. -/
theorem classify_spec_grammar_counterexample :
    SpecGrammarMatches "feat   : x"
      { type := "feat", scope := none, breaking := none, description := "x" } ∧
    classify "feat   : x" = MessageVal.raw "feat   : x" := by
  constructor
  · refine ⟨[], [], [' ', ' ', ' '], [' '], ?_, ?_, ?_, ?_, ?_, ?_, ?_⟩ <;> decide
  · decide

/-- C1: for every version triple and release kind, `bump` returns exactly
the documented triple, and strictly increases the component selected by the
kind. -/
theorem bump_exact_and_strictly_increases (v : SemVer) :
    (bump v ReleaseKind.major = ⟨v.major + 1, 0, 0⟩ ∧
      v.major < (bump v ReleaseKind.major).major) ∧
    (bump v ReleaseKind.minor = ⟨v.major, v.minor + 1, 0⟩ ∧
      v.minor < (bump v ReleaseKind.minor).minor) ∧
    (bump v ReleaseKind.patch = ⟨v.major, v.minor, v.patch + 1⟩ ∧
      v.patch < (bump v ReleaseKind.patch).patch) := by
  refine ⟨⟨rfl, ?_⟩, ⟨rfl, ?_⟩, ⟨rfl, ?_⟩⟩ <;> simp [bump]

end Bump
